import Mathlib

/-!
# Hash commands and cursor scan of `src/hash.cc`

A shallow embedding of the hash ("mapping") data type: the bucketed table
`PHash`, the cursor scan `HScanHashMember` / `HScanKey`, and the command
handlers `hset`, `hmset`, `hget`, `hmget`, `hgetall`, `hkeys`, `hvals`, `hdel`,
`hexists`, `hlen`, `hincrby`, `hsetnx`, `hstrlen`.
The embedding follows the `USING_TBB` branch of the source, the one in which
`HScanHashMember` is defined.
-/

namespace pikiwidb

/-! ## Data model -/

/-- Byte strings of the store (`PString` is `std::string`). -/
abbrev PString := String

/-- One field of a hash: `PHash::value_type`, the pair (field name, value). -/
abbrev Entry := PString × PString

/-- The table `PHash`, seen through its bucket interface: `buckets[b]` lists
the entries of bucket `b` in bucket-local iteration order. -/
structure PHash where
  buckets : List (List Entry)
  deriving DecidableEq, Repr

namespace PHash

/-- All entries in table iteration order: buckets in ascending index order,
each bucket in bucket-local order (`for (const auto& kv : *hash)`). -/
def entries (h : PHash) : List Entry := h.buckets.flatten

/-- The call `container.size()`: the number of entries held. -/
def size (h : PHash) : Nat := h.entries.length

/-- The call `hash.empty()`. -/
def empty (h : PHash) : Bool := h.size == 0

/-- The call `container.bucket_count()`. -/
def bucket_count (h : PHash) : Nat := h.buckets.length

/-- The call `container.bucket_size(bucket)`. -/
def bucket_size (h : PHash) (bucket : Nat) : Nat := (h.buckets.getD bucket []).length

end PHash

/-! ## The cursor scan

A bucket-local iterator is represented by the list of entries from its
position to the end of its bucket (`it == end` is the empty list); the bucket
index is represented by the list of buckets that follow the current one. -/

/-- The inner loop `while (++bucket < container.bucket_count())` of
`HScanHashMember`: advance to the next bucket with `bucket_size(bucket) > 0`.
The result is `none` when the loop ends with `bucket == bucket_count()`, and
otherwise the new `it = container.begin(bucket)` with the buckets after it. -/
def nextBucket : List (List Entry) → Option (List Entry × List (List Entry))
  | [] => none
  | b :: rest => if b.length > 0 then some (b, rest) else nextBucket rest

/-- The loop `while (res.size() < count && it != end)` of `HScanHashMember`.
`remaining` is `count - res.size()`, `it` the iterator, `rest` the buckets
after the current one. Returns the value returned by the function from this
point on, with the final `res`. -/
def collect : (remaining : Nat) → (it : List Entry) → (rest : List (List Entry)) →
    (newCursor : Nat) → (res : List Entry) → Nat × List Entry
  | 0, _, _, newCursor, res => (newCursor, res)
  | _ + 1, [], _, newCursor, res => (newCursor, res)
  | remaining + 1, e :: it, rest, newCursor, res =>
    -- ++newCursor; res.push_back(it++);
    let newCursor := newCursor + 1
    let res := res ++ [e]
    if it.isEmpty then
      -- if (it == end): look for the next non-empty bucket
      match nextBucket rest with
      | none => (0, res)
      | some (it, rest) => collect remaining it rest newCursor res
    else
      collect remaining it rest newCursor res

/-- The outer loop `for (bucket = 0; bucket < bucket_count(); ++bucket)` of
`HScanHashMember`, from the bucket at the head of `bs` on, with the current
`idx`. Running past the last bucket is the final `return 0;  // never here`. -/
def walk (cursor count : Nat) (res : List Entry) :
    (bs : List (List Entry)) → (idx : Nat) → Nat × List Entry
  | [], _ => (0, res)
  | b :: rest, idx =>
    if idx < b.length then
      -- find the bucket; `while (idx > 0) { ++it; --idx; }`
      collect (count - res.length) (b.drop idx) rest cursor res
    else
      walk cursor count res rest (idx - b.length)

/-- `HScanHashMember(container, cursor, count, res)`: returns the new cursor
and the vector `res` with the collected iterators appended. -/
def HScanHashMember (container : PHash) (cursor count : Nat) (res : List Entry) :
    Nat × List Entry :=
  if cursor ≥ container.size then (0, res)
  else walk cursor count res container.buckets cursor

/-- `HScanKey(hash, cursor, count, res)`: returns the new cursor and `res`
with field and value of every collected entry pushed back. -/
def HScanKey (hash : PHash) (cursor count : Nat) (res : List PString) :
    Nat × List PString :=
  if hash.empty then (0, res)
  else
    let r := HScanHashMember hash cursor count []
    (r.1, res ++ r.2.flatMap (fun it => [it.1, it.2]))

/-- The batch of one `HScanKey` call: what it appends to an empty `res`. -/
def scanBatch (hash : PHash) (cursor count : Nat) : List PString :=
  (HScanKey hash cursor count []).2

/-- The cursor returned by one `HScanKey` call. -/
def scanNext (hash : PHash) (cursor count : Nat) : Nat :=
  (HScanKey hash cursor count []).1

/-- Decodes a scan result: consecutive strings `field, value` back into the
entries they were pushed from. -/
def unpair : List PString → List Entry
  | f :: v :: rest => (f, v) :: unpair rest
  | _ => []

/-- The cursor supplied to call number `i` (from 0) of a scan that starts at
cursor 0 and feeds each returned cursor into the next call, where call `j`
finds the table in state `T j`. -/
def cursorAt (T : Nat → PHash) (count : Nat) : Nat → Nat
  | 0 => 0
  | i + 1 => scanNext (T i) (cursorAt T count i) count

/-- The batch returned by call number `i` of that scan. -/
def batchAt (T : Nat → PHash) (count : Nat) (i : Nat) : List PString :=
  scanBatch (T i) (cursorAt T count i) count

/-- The concatenation of the batches of calls `0 .. n - 1`. -/
def batchesUpTo (T : Nat → PHash) (count : Nat) (n : Nat) : List PString :=
  (List.range n).flatMap (batchAt T count)

/-- Field and value of every entry, in order: what `HScanKey` pushes. -/
def flat (es : List Entry) : List PString := es.flatMap (fun it => [it.1, it.2])

/-- The cursor one call returns on a table of `size` entries. -/
def nextCursorOf (size cursor count : Nat) : Nat :=
  if cursor ≥ size then 0
  else if count = 0 then cursor
  else if cursor + count < size then cursor + count else 0

/-- Tables seen by the calls of a scan in which field `a` is removed after
the first call: `b` is present throughout. -/
def shrinkingTables : Nat → PHash := fun i =>
  if i = 0 then ⟨[[("a", "1")], [("b", "2")]]⟩ else ⟨[[], [("b", "2")]]⟩

/-- Tables seen by the calls of a scan in which field `c` is inserted after
the first call. -/
def growingTables : Nat → PHash := fun i =>
  if i = 0 then ⟨[[("a", "1")], [("b", "2")]]⟩ else ⟨[[("a", "1")], [("b", "2")], [("c", "3")]]⟩

/-- Tables seen by the calls of a scan in which, after the first call, field
`z` is inserted in front of `b` and the value of `b` is overwritten. -/
def shiftingTables : Nat → PHash := fun i =>
  if i = 0 then ⟨[[("a", "1")], [("b", "2")]]⟩ else ⟨[[("a", "1"), ("z", "9")], [("b", "5")]]⟩

/-! ## Operations of the table used by the handlers

Field names are unique within one table. `find` returns the first entry
with the key in iteration order, which on such a table is the only one. -/

/-- First value bound to `key` in a list of entries. -/
def findIn : List Entry → PString → Option PString
  | [], _ => none
  | e :: rest, key => if e.1 = key then some e.2 else findIn rest key

/-- Overwrites the value of the first entry with `key` in a list of entries. -/
def setSecond (key val : PString) : List Entry → List Entry
  | [] => []
  | e :: rest => if e.1 = key then (e.1, val) :: rest else e :: setSecond key val rest

/-- Overwrites the value of the first entry with `key` in a list of buckets. -/
def assignBuckets (key val : PString) : List (List Entry) → List (List Entry)
  | [] => []
  | b :: rest =>
    if (findIn b key).isSome then setSecond key val b :: rest
    else b :: assignBuckets key val rest

/-- Adds entry `e` at the end of bucket number `i`; a table without buckets
allocates its first bucket. -/
def putInBucket (e : Entry) : List (List Entry) → Nat → List (List Entry)
  | [], _ => [[e]]
  | b :: rest, 0 => (b ++ [e]) :: rest
  | b :: rest, i + 1 => b :: putInBucket e rest i

namespace PHash

/-- The call `hash.find(a, key)`: `some` of the value the accessor points at
when the key is found. -/
def find (h : PHash) (key : PString) : Option PString := findIn h.entries key

/-- The assignment `a->second = val` through an accessor that `find` has
positioned on `key`. -/
def assign (h : PHash) (key val : PString) : PHash := ⟨assignBuckets key val h.buckets⟩

/-- The call `hash.insert(value_type(key, val))`: inserts when the key is
not present, into the bucket selected by the hash `hashOf` of the key, and
returns whether it inserted. An entry that is present is left as it is. -/
def insert (hashOf : PString → Nat) (h : PHash) (e : Entry) : PHash × Bool :=
  match h.find e.1 with
  | some _ => (h, false)
  | none => (⟨putInBucket e h.buckets (hashOf e.1 % h.bucket_count)⟩, true)

/-- The call `hash.erase(key)`: removes the entry with the key and returns
whether there was one. -/
def erase (h : PHash) (key : PString) : PHash × Bool :=
  match h.find key with
  | some _ => (⟨h.buckets.map (fun b => b.filter (fun e => e.1 ≠ key))⟩, true)
  | none => (h, false)

end PHash

/-! ## Errors, replies and the key table -/

/-- Error codes returned by the handlers. -/
inductive PError
  | PError_ok
  | PError_type
  | PError_notExist
  | PError_param
  | PError_nan
  deriving DecidableEq, Repr

/-- Type tags of the values a key can hold. -/
inductive PType
  | PType_string
  | PType_list
  | PType_set
  | PType_sortedSet
  | PType_hash
  deriving DecidableEq, Repr

open PError PType

/-- Modelled from the spec: the reply formatting helpers (`FormatInt`,
`FormatBulk`, `FormatNull`, `FormatOK`, `Format0`, `PreFormatMultiBulk`,
`ReplyError`) are declared outside `src/`; the reply buffer is the sequence
of reply shapes emitted into it (integer, bulk value, null, the declared
element count of a multi-value reply, status OK, error). -/
inductive ReplyItem
  | FormatInt (n : Int)
  | FormatBulk (s : PString)
  | FormatNull
  | FormatOK
  | Format0
  | PreFormatMultiBulk (n : Nat)
  | ReplyError (err : PError)
  deriving DecidableEq, Repr

open ReplyItem

/-- The buffer `UnboundedBuffer* reply`: the replies emitted so far. -/
abbrev UnboundedBuffer := List ReplyItem

/-- A typed value of the key table: a hash, or a value of another type. -/
inductive PObject
  | hash (h : PHash)
  | other (t : PType)
  deriving DecidableEq, Repr

namespace PObject

/-- The type tag of the object. -/
def type : PObject → PType
  | hash _ => PType_hash
  | other t => t

/-- `PObject::CreateHash()`: a new object holding an empty `PHash`. -/
def CreateHash : PObject := hash ⟨[[]]⟩

/-- `value->CastHash()`. -/
def CastHash : PObject → PHash
  | hash h => h
  | other _ => ⟨[]⟩

end PObject

/-- The key table `PSTORE`: at most one typed value per key. -/
abbrev PStore := List (PString × PObject)

namespace PStore

/-- The value bound to `key`, if any. -/
def get : PStore → PString → Option PObject
  | [], _ => none
  | (k, o) :: rest, key => if k = key then some o else get rest key

/-- Binds `key` to `obj`, replacing the value the key held. -/
def put : PStore → PString → PObject → PStore
  | [], key, obj => [(key, obj)]
  | (k, o) :: rest, key, obj =>
    if k = key then (k, obj) :: rest else (k, o) :: put rest key obj

end PStore

/-- Modelled from the spec: `PSTORE.GetValueByType` is defined outside `src/`
(only its calls are here). By the spec it resolves a key to its typed
container, `resolveTyped(key) -> (container, NotFound | WrongType | Ok)`:
not-exist when the key is absent, wrong-type when it holds a value of
another type. -/
def GetValueByType (store : PStore) (key : PString) (type : PType) : Except PError PObject :=
  match store.get key with
  | none => .error PError_notExist
  | some obj => if obj.type = type then .ok obj else .error PError_type

/-- Modelled from the spec: `PSTORE.SetValue` is defined outside `src/`; it
binds the key to the given object (the `resolveOrCreateTyped` of the spec
creates the mapping with it). The returned pointer is the object now in the
table under `key`. -/
def SetValue (store : PStore) (key : PString) (obj : PObject) : PStore := store.put key obj

/-- The in-place update of the hash that `value` points at in the key table. -/
def storeHash (store : PStore) (key : PString) (h : PHash) : PStore :=
  store.put key (PObject.hash h)

/-- The `GET_HASH(hashname)` lookup: the hash of the key, or the error that
the handler replies and returns. -/
def GET_HASH (store : PStore) (hashname : PString) : Except PError PHash :=
  match GetValueByType store hashname PType_hash with
  | .error err => .error err
  | .ok value => .ok value.CastHash

/-- The `GET_OR_SET_HASH(hashname)` lookup: an error other than not-exist is
replied and returned; on not-exist a new hash is stored under the key. -/
def GET_OR_SET_HASH (store : PStore) (hashname : PString) : Except PError (PStore × PHash) :=
  match GetValueByType store hashname PType_hash with
  | .error err =>
    if err ≠ PError_ok ∧ err ≠ PError_notExist then .error err
    else
      let store := SetValue store hashname PObject.CreateHash
      .ok (store, PObject.CreateHash.CastHash)
  | .ok value => .ok (store, value.CastHash)

/-- The value bound to `field` in the hash that `key` holds, if there is one. -/
def fieldOf (store : PStore) (key field : PString) : Option PString :=
  match store.get key with
  | some (PObject.hash h) => h.find field
  | _ => none

/-- The hash a handler that creates the key on demand works on: the hash the
key holds, or the new empty hash. -/
def curHash (store : PStore) (key : PString) : PHash :=
  match store.get key with
  | some (PObject.hash h) => h
  | _ => PObject.CreateHash.CastHash

/-- The key is absent from the key table or holds a hash. -/
def HashOrAbsent (store : PStore) (key : PString) : Prop :=
  store.get key = none ∨ ∃ h, store.get key = some (PObject.hash h)

/-- The element `params[i]` of the argument vector. -/
def arg (params : List PString) (i : Nat) : PString := params.getD i ""

/-! ## Numeric helpers of `hincrby` -/

/-- A `long` value out of an integer: two's complement wrap to 64 bits. -/
def toLong (x : Int) : Int := (x + 2 ^ 63) % 2 ^ 64 - 2 ^ 63

/-- An `int` value out of an integer: two's complement wrap to 32 bits. -/
def toInt32 (x : Int) : Int := (x + 2 ^ 31) % 2 ^ 32 - 2 ^ 31

/-- The C predicate `isspace` in the "C" locale. -/
def isspace (c : Char) : Bool :=
  c = ' ' || c = '\t' || c = '\n' || c = '\x0b' || c = '\x0c' || c = '\r'

/-- The digit loop of `atoi`: accumulates decimal digits and stops at the
first character that is not a digit (the terminating NUL of `c_str()` is one). -/
def atoiLoop : List Char → Nat → Nat
  | [], acc => acc
  | c :: cs, acc => if c.isDigit then atoiLoop cs (acc * 10 + (c.toNat - 48)) else acc

/-- The `int` that `atoi` returns for the value `x` it has read: a value out
of the range of `int` (undefined by the C standard) is taken as the common
implementation returns it, the `long` of `strtol`, saturated, truncated to
32 bits. -/
def atoiResult (x : Int) : Int := toInt32 (max (-(2 ^ 63)) (min (2 ^ 63 - 1) x))

/-- The library call `atoi(s.c_str())`: skips leading white space, reads an
optional sign and the decimal digits that follow, and ignores the rest; no
digits give 0. -/
def atoi (s : PString) : Int :=
  match s.data.dropWhile isspace with
  | [] => atoiResult 0
  | c :: cs =>
    if c = '-' then atoiResult (-(atoiLoop cs 0 : Int))
    else if c = '+' then atoiResult (atoiLoop cs 0)
    else atoiResult (atoiLoop (c :: cs) 0)

/-- The decimal digit character of `d < 10`. -/
def digitChar (d : Nat) : Char := Char.ofNat (48 + d)

/-- The decimal digits of `n` pushed in front of `acc`, most significant
first; `fuel` bounds the number of digits. -/
def natDigits : (fuel : Nat) → Nat → List Char → List Char
  | 0, _, acc => acc
  | fuel + 1, n, acc =>
    let acc := digitChar (n % 10) :: acc
    if n / 10 = 0 then acc else natDigits fuel (n / 10) acc

/-- The text written by `snprintf(tmp, sizeof tmp - 1, "%ld", val)`: the
decimal representation of a `long`, at most 20 characters, which fits. -/
def fmtLong (val : Int) : PString :=
  match val with
  | Int.ofNat n => String.mk (natDigits (n + 1) n [])
  | Int.negSucc n => String.mk ('-' :: natDigits (n + 2) (n + 1) [])

/-! ## Command handlers

A handler takes the argument vector `params` (`params[0]` is the command
name, `params[1]` the key), the key table and the reply buffer, and returns
its `PError` with the key table and the reply buffer it leaves. -/

/-- The result of a handler. -/
abbrev Outcome := PError × PStore × UnboundedBuffer

/-- `_set_hash_force(hash, key, val, a)`: overwrite the value when the key is
found, insert the pair otherwise. -/
def _set_hash_force (hashOf : PString → Nat) (hash : PHash) (key val : PString) : PHash :=
  match hash.find key with
  | some _ => hash.assign key val
  | none => (hash.insert hashOf (key, val)).1

/-- `_set_hash_if_notexist(hash, key, val)`: the result of `hash.insert`. -/
def _set_hash_if_notexist (hashOf : PString → Nat) (hash : PHash) (key val : PString) :
    PHash × Bool :=
  hash.insert hashOf (key, val)

/-- Handler `hset`. -/
def hset (hashOf : PString → Nat) (params : List PString) (store : PStore)
    (reply : UnboundedBuffer) : Outcome :=
  match GET_OR_SET_HASH store (arg params 1) with
  | .error err => (err, store, reply ++ [ReplyError err])
  | .ok (store, hash) =>
    let hash := _set_hash_force hashOf hash (arg params 2) (arg params 3)
    (PError_ok, storeHash store (arg params 1) hash, reply ++ [FormatInt 1])

/-- The loop `for (i = 2; i < params.size(); i += 2)` of `hmset`, over the
arguments from `params[i]` on; a pair cut short reads `params[i + 1]` as the
empty string. -/
def hmsetLoop (hashOf : PString → Nat) : List PString → PHash → PHash
  | [], hash => hash
  | [f], hash => _set_hash_force hashOf hash f ""
  | f :: v :: rest, hash => hmsetLoop hashOf rest (_set_hash_force hashOf hash f v)

/-- Handler `hmset`. -/
def hmset (hashOf : PString → Nat) (params : List PString) (store : PStore)
    (reply : UnboundedBuffer) : Outcome :=
  if params.length % 2 ≠ 0 then (PError_param, store, reply ++ [ReplyError PError_param])
  else
    match GET_OR_SET_HASH store (arg params 1) with
    | .error err => (err, store, reply ++ [ReplyError err])
    | .ok (store, hash) =>
      let hash := hmsetLoop hashOf (params.drop 2) hash
      (PError_ok, storeHash store (arg params 1) hash, reply ++ [FormatOK])

/-- The reply of one field lookup: bulk value when found, null otherwise. -/
def replyField (hash : PHash) (field : PString) : ReplyItem :=
  match hash.find field with
  | some v => FormatBulk v
  | none => FormatNull

/-- Handler `hget`. -/
def hget (params : List PString) (store : PStore) (reply : UnboundedBuffer) : Outcome :=
  match GET_HASH store (arg params 1) with
  | .error err => (err, store, reply ++ [ReplyError err])
  | .ok hash => (PError_ok, store, reply ++ [replyField hash (arg params 2)])

/-- Handler `hmget`. -/
def hmget (params : List PString) (store : PStore) (reply : UnboundedBuffer) : Outcome :=
  match GET_HASH store (arg params 1) with
  | .error err => (err, store, reply ++ [ReplyError err])
  | .ok hash =>
    (PError_ok, store,
      reply ++ [PreFormatMultiBulk (params.length - 2)] ++ (params.drop 2).map (replyField hash))

/-- Handler `hgetall`. -/
def hgetall (params : List PString) (store : PStore) (reply : UnboundedBuffer) : Outcome :=
  match GET_HASH store (arg params 1) with
  | .error err => (err, store, reply ++ [ReplyError err])
  | .ok hash =>
    (PError_ok, store,
      reply ++ [PreFormatMultiBulk (2 * hash.size)] ++
        hash.entries.flatMap (fun kv => [FormatBulk kv.1, FormatBulk kv.2]))

/-- Handler `hkeys`. -/
def hkeys (params : List PString) (store : PStore) (reply : UnboundedBuffer) : Outcome :=
  match GET_HASH store (arg params 1) with
  | .error err => (err, store, reply ++ [ReplyError err])
  | .ok hash =>
    (PError_ok, store,
      reply ++ [PreFormatMultiBulk hash.size] ++ hash.entries.map (fun kv => FormatBulk kv.1))

/-- Handler `hvals`. -/
def hvals (params : List PString) (store : PStore) (reply : UnboundedBuffer) : Outcome :=
  match GET_HASH store (arg params 1) with
  | .error err => (err, store, reply ++ [ReplyError err])
  | .ok hash =>
    (PError_ok, store,
      reply ++ [PreFormatMultiBulk hash.size] ++ hash.entries.map (fun kv => FormatBulk kv.2))

/-- The loop `for (i = 2; i < params.size(); ++i)` of `hdel` over the listed
fields: erases each one and counts the erasures in `del`. -/
def hdelLoop : List PString → PHash → Int → PHash × Int
  | [], hash, del => (hash, del)
  | f :: rest, hash, del =>
    let r := hash.erase f
    hdelLoop rest r.1 (if r.2 then del + 1 else del)

/-- Handler `hdel`. -/
def hdel (params : List PString) (store : PStore) (reply : UnboundedBuffer) : Outcome :=
  match GetValueByType store (arg params 1) PType_hash with
  | .error err => (err, store, reply ++ [ReplyError err])
  | .ok value =>
    let r := hdelLoop (params.drop 2) value.CastHash 0
    (PError_ok, storeHash store (arg params 1) r.1, reply ++ [FormatInt r.2])

/-- Handler `hexists`. -/
def hexists (params : List PString) (store : PStore) (reply : UnboundedBuffer) : Outcome :=
  match GET_HASH store (arg params 1) with
  | .error err => (err, store, reply ++ [ReplyError err])
  | .ok hash =>
    match hash.find (arg params 2) with
    | some _ => (PError_ok, store, reply ++ [FormatInt 1])
    | none => (PError_ok, store, reply ++ [FormatInt 0])

/-- Handler `hlen`. -/
def hlen (params : List PString) (store : PStore) (reply : UnboundedBuffer) : Outcome :=
  match GET_HASH store (arg params 1) with
  | .error err => (err, store, reply ++ [ReplyError err])
  | .ok hash => (PError_ok, store, reply ++ [FormatInt hash.size])

/-- Handler `hincrby`. `Strtol` is the helper `Strtol(ptr, nBytes, &val)` of
the repository, declared outside `src/`: `some val` when it returns true. -/
def hincrby (hashOf : PString → Nat) (Strtol : PString → Option Int) (params : List PString)
    (store : PStore) (reply : UnboundedBuffer) : Outcome :=
  match GET_OR_SET_HASH store (arg params 1) with
  | .error err => (err, store, reply ++ [ReplyError err])
  | .ok (store, hash) =>
    match hash.find (arg params 2) with
    | some str =>
      match Strtol str with
      | some val =>
        -- val += atoi(params[3].c_str());
        let val := toLong (val + atoi (arg params 3))
        let hash := hash.assign (arg params 2) (fmtLong val)
        (PError_ok, storeHash store (arg params 1) hash, reply ++ [FormatInt val])
      | none => (PError_nan, store, reply ++ [ReplyError PError_nan])
    | none =>
      let val := atoi (arg params 3)
      let hash := _set_hash_force hashOf hash (arg params 2) ""
      let hash := hash.assign (arg params 2) (fmtLong val)
      (PError_ok, storeHash store (arg params 1) hash, reply ++ [FormatInt val])

/-- Handler `hsetnx`. -/
def hsetnx (hashOf : PString → Nat) (params : List PString) (store : PStore)
    (reply : UnboundedBuffer) : Outcome :=
  match GET_OR_SET_HASH store (arg params 1) with
  | .error err => (err, store, reply ++ [ReplyError err])
  | .ok (store, hash) =>
    let r := _set_hash_if_notexist hashOf hash (arg params 2) (arg params 3)
    if r.2 then (PError_ok, storeHash store (arg params 1) r.1, reply ++ [FormatInt 1])
    else (PError_ok, storeHash store (arg params 1) r.1, reply ++ [FormatInt 0])

/-- Handler `hstrlen`. -/
def hstrlen (params : List PString) (store : PStore) (reply : UnboundedBuffer) : Outcome :=
  match GetValueByType store (arg params 1) PType_hash with
  | .error err => (err, store, reply ++ [Format0])
  | .ok value =>
    match value.CastHash.find (arg params 2) with
    | none => (PError_ok, store, reply ++ [Format0])
    | some v => (PError_ok, store, reply ++ [FormatInt v.utf8ByteSize])

/-- Modelled from the spec: `Strtol` is defined outside `src/`; by the spec
the stored value is parsed as a base-10 integer and rejected when it is not
a valid one. This instance accepts an optional `-` followed by one or more
decimal digits and nothing else. -/
def decimalStrtol (s : PString) : Option Int :=
  match s.data with
  | '-' :: c :: cs => if (c :: cs).all Char.isDigit then some (-(atoiLoop (c :: cs) 0 : Int)) else none
  | c :: cs => if (c :: cs).all Char.isDigit then some (atoiLoop (c :: cs) 0 : Int) else none
  | [] => none

/-! ## Sequences of write commands and the bucket search -/

/-- The field names of a table, in iteration order. -/
def keysOf (h : PHash) : List PString := h.entries.map Prod.fst

/-- A write command on the fields of one key: `hset f v`, `hsetnx f v`, or
`hdel` of the listed fields. -/
inductive HCmd
  | hset (f v : PString)
  | hsetnx (f v : PString)
  | hdel (fs : List PString)
  deriving DecidableEq, Repr

/-- The command inserts field `f` (when it was not there). -/
def HCmd.inserts : HCmd → PString → Prop
  | .hset g _, f => g = f
  | .hsetnx g _, f => g = f
  | .hdel _, _ => False

/-- The command deletes field `f`. -/
def HCmd.deletes : HCmd → PString → Prop
  | .hset _ _, _ => False
  | .hsetnx _ _, _ => False
  | .hdel fs, f => f ∈ fs

/-- The key table after the handler of one command has run on key `k`. -/
def runCmd (hashOf : PString → Nat) (k : PString) (store : PStore) : HCmd → PStore
  | .hset f v => (hset hashOf ["hset", k, f, v] store []).2.1
  | .hsetnx f v => (hsetnx hashOf ["hsetnx", k, f, v] store []).2.1
  | .hdel fs => (hdel ("hdel" :: k :: fs) store []).2.1

/-- The key table after the handlers of a sequence of commands have run on
key `k`, in order. -/
def runCmds (hashOf : PString → Nat) (k : PString) (store : PStore) (cmds : List HCmd) : PStore :=
  cmds.foldl (runCmd hashOf k) store

/-- The reference count of the spec, one command further: an insertion adds
the name when it is not live, a deletion removes the listed names. -/
def liveStep (live : List PString) : HCmd → List PString
  | .hset f _ => if f ∈ live then live else f :: live
  | .hsetnx f _ => if f ∈ live then live else f :: live
  | .hdel fs => live.filter (fun f => f ∉ fs)

/-- The reference of the spec for the field count: the distinct field names
that a sequence of commands has inserted and not deleted since. -/
def liveNames (cmds : List HCmd) : List PString := cmds.foldl liveStep []

/-- A sample command sequence: two insertions, a repeated set, a deletion of
one live and one absent name, and one more insertion. -/
def sampleCmds : List HCmd :=
  [HCmd.hset "a" "1", HCmd.hsetnx "b" "2", HCmd.hset "a" "3", HCmd.hdel ["a", "x"],
    HCmd.hsetnx "c" "4"]

/-- The hash of key `k` holds exactly the names of `live`, each once: the key
is absent and no name is live, or the field names of its hash are a
rearrangement of `live`. -/
def TracksLive (k : PString) (store : PStore) (live : List PString) : Prop :=
  live.Nodup ∧
    ((store.get k = none ∧ live = []) ∨
      ∃ h, store.get k = some (PObject.hash h) ∧ (keysOf h).Perm live)

/-- The search of the loop `for (bucket = 0; bucket < bucket_count(); ++bucket)`
of `HScanHashMember`, over the buckets `bs` that start at index `bucket`: the
index of the first bucket with `idx < bktSize` and the value of `idx` there,
or `none` when the loop runs past the last bucket to the final `return 0`. -/
def findBucket : (bs : List (List Entry)) → (bucket idx : Nat) → Option (Nat × Nat)
  | [], _, _ => none
  | b :: rest, bucket, idx =>
    if idx < b.length then some (bucket, idx) else findBucket rest (bucket + 1) (idx - b.length)

/-! ## The scan returns a window of the bucket-order enumeration -/

theorem nextBucket_none {bs : List (List Entry)} (h : nextBucket bs = none) :
    bs.flatten = [] := by
  induction bs with
  | nil => rfl
  | cons b rest ih =>
    unfold nextBucket at h
    split at h
    · cases h
    · have hb : b = [] := by
        cases b with
        | nil => rfl
        | cons x xs => simp at *
      simp [hb, ih h]

theorem nextBucket_some {bs : List (List Entry)} {it : List Entry} {rest : List (List Entry)}
    (h : nextBucket bs = some (it, rest)) : it ≠ [] ∧ it ++ rest.flatten = bs.flatten := by
  induction bs with
  | nil => cases h
  | cons b bs ih =>
    unfold nextBucket at h
    split at h
    · rename_i hpos
      simp only [Option.some.injEq, Prod.mk.injEq] at h
      obtain ⟨rfl, rfl⟩ := h
      refine ⟨?_, by simp⟩
      intro hb
      simp [hb] at hpos
    · rename_i hpos
      have hb : b = [] := by
        cases b with
        | nil => rfl
        | cons x xs => simp at hpos
      obtain ⟨h1, h2⟩ := ih h
      exact ⟨h1, by simp [hb, h2]⟩

theorem collect_spec (n : Nat) : ∀ (it : List Entry) (rest : List (List Entry))
    (nc : Nat) (res : List Entry), it ≠ [] →
    collect n it rest nc res =
      (if n = 0 then nc else if n < (it ++ rest.flatten).length then nc + n else 0,
        res ++ (it ++ rest.flatten).take n) := by
  induction n with
  | zero => intro it rest nc res _; simp [collect]
  | succ n ih =>
    intro it rest nc res hit
    cases it with
    | nil => exact absurd rfl hit
    | cons e it =>
      unfold collect
      simp only []
      cases it with
      | nil =>
        simp only [List.isEmpty_nil, if_true]
        cases hnb : nextBucket rest with
        | none =>
          have := nextBucket_none hnb
          simp [this]
        | some p =>
          obtain ⟨it2, rest2⟩ := p
          obtain ⟨h1, h2⟩ := nextBucket_some hnb
          simp only []
          rw [ih it2 rest2 _ _ h1, h2]
          have hlen : 0 < rest.flatten.length := by
            rw [← h2]
            cases it2 with
            | nil => exact absurd rfl h1
            | cons x xs => simp
          generalize rest.flatten = L at hlen ⊢
          ext1
          · simp only [List.nil_append, List.singleton_append, List.length_cons]
            rw [if_neg (Nat.succ_ne_zero n)]
            split_ifs <;> omega
          · simp
      | cons e2 it2 =>
        simp only [List.isEmpty_cons, Bool.false_eq_true, if_false]
        rw [ih (e2 :: it2) rest _ _ (by simp)]
        generalize rest.flatten = L
        ext1
        · simp only [List.cons_append, List.length_cons]
          rw [if_neg (Nat.succ_ne_zero n)]
          split_ifs <;> omega
        · simp

theorem walk_spec (cursor count : Nat) (res : List Entry) :
    ∀ (bs : List (List Entry)) (idx : Nat), idx < bs.flatten.length →
    walk cursor count res bs idx =
      (if count - res.length = 0 then cursor
        else if count - res.length < (bs.flatten.drop idx).length
          then cursor + (count - res.length) else 0,
        res ++ (bs.flatten.drop idx).take (count - res.length)) := by
  intro bs
  induction bs with
  | nil => intro idx h; simp at h
  | cons b rest ih =>
    intro idx h
    unfold walk
    by_cases hlt : idx < b.length
    · simp only [hlt, if_true]
      have hne : b.drop idx ≠ [] := by
        intro hd
        have := congrArg List.length hd
        simp at this
        omega
      rw [collect_spec _ _ _ _ _ hne]
      have hdrop : (b :: rest).flatten.drop idx = b.drop idx ++ rest.flatten := by
        simp only [List.flatten_cons]
        rw [List.drop_append_of_le_length (Nat.le_of_lt hlt)]
      rw [hdrop]
    · simp only [hlt, if_false]
      have hlen : idx - b.length < rest.flatten.length := by
        simp only [List.flatten_cons, List.length_append] at h
        omega
      rw [ih _ hlen]
      have hdrop : (b :: rest).flatten.drop idx = rest.flatten.drop (idx - b.length) := by
        simp only [List.flatten_cons]
        rw [List.drop_append_eq_append_drop]
        have : b.drop idx = [] := List.drop_eq_nil_of_le (by omega)
        simp [this]
      rw [hdrop]

theorem HScanHashMember_spec (h : PHash) (cursor count : Nat) :
    HScanHashMember h cursor count [] =
      (nextCursorOf h.size cursor count, (h.entries.drop cursor).take count) := by
  unfold HScanHashMember nextCursorOf
  by_cases hc : cursor ≥ h.size
  · simp only [hc, if_true]
    have : h.entries.drop cursor = [] := List.drop_eq_nil_of_le hc
    simp [this]
  · simp only [hc, if_false]
    have hlt : cursor < h.buckets.flatten.length := by
      simp only [PHash.size, PHash.entries] at hc
      omega
    rw [walk_spec _ _ _ _ _ hlt]
    simp only [List.length_nil, Nat.sub_zero, List.nil_append, PHash.entries, PHash.size]
    congr 1
    rw [List.length_drop]
    split_ifs <;> omega

theorem HScanKey_spec (h : PHash) (cursor count : Nat) (res : List PString) :
    HScanKey h cursor count res =
      (nextCursorOf h.size cursor count, res ++ flat ((h.entries.drop cursor).take count)) := by
  unfold HScanKey
  by_cases he : h.empty = true
  · have hs : h.size = 0 := by simpa [PHash.empty] using he
    have hnil : h.entries = [] := List.length_eq_zero.mp hs
    simp [he, nextCursorOf, hs, hnil, flat]
  · simp only [he, Bool.false_eq_true, if_false, HScanHashMember_spec, flat]

/-! ## Scan cycles -/

theorem unpair_flat (es : List Entry) : unpair (flat es) = es := by
  induction es with
  | nil => rfl
  | cons e es ih =>
    show unpair (e.1 :: e.2 :: flat es) = e :: es
    simp [unpair, ih]

theorem flat_append (xs ys : List Entry) : flat (xs ++ ys) = flat xs ++ flat ys := by
  simp [flat]

theorem scanNext_eq (h : PHash) (cursor count : Nat) :
    scanNext h cursor count = nextCursorOf h.size cursor count := by
  simp [scanNext, HScanKey_spec]

theorem scanBatch_eq (h : PHash) (cursor count : Nat) :
    scanBatch h cursor count = flat ((h.entries.drop cursor).take count) := by
  simp [scanBatch, HScanKey_spec]

theorem nextCursorOf_ne_zero {size cursor count : Nat} (hc : 1 ≤ count)
    (h : nextCursorOf size cursor count ≠ 0) :
    nextCursorOf size cursor count = cursor + count ∧ cursor + count < size := by
  unfold nextCursorOf at h ⊢
  split_ifs at h ⊢ <;> omega

theorem nextCursorOf_eq_zero {size cursor count : Nat} (hc : 1 ≤ count)
    (h : nextCursorOf size cursor count = 0) : size ≤ cursor + count := by
  unfold nextCursorOf at h
  split_ifs at h <;> omega

theorem cursorAt_succ (T : Nat → PHash) (count i : Nat) :
    cursorAt T count (i + 1) = nextCursorOf (T i).size (cursorAt T count i) count := by
  simp [cursorAt, scanNext_eq]

/-- While no call has returned cursor 0, call `i` is entered with cursor
`i * count`. -/
theorem cursorAt_running (T : Nat → PHash) (count : Nat) (hc : 1 ≤ count) :
    ∀ i, (∀ j, j < i → cursorAt T count (j + 1) ≠ 0) → cursorAt T count i = i * count := by
  intro i
  induction i with
  | zero => intro _; simp [cursorAt]
  | succ i ih =>
    intro hrun
    have hi := ih (fun j hj => hrun j (Nat.lt_succ_of_lt hj))
    have hne := hrun i (Nat.lt_succ_self i)
    rw [cursorAt_succ] at hne ⊢
    rw [(nextCursorOf_ne_zero hc hne).1, hi, Nat.succ_mul]

theorem batchAt_eq (T : Nat → PHash) (count i : Nat) :
    batchAt T count i = flat (((T i).entries.drop (cursorAt T count i)).take count) := by
  simp [batchAt, scanBatch_eq]

theorem batchesUpTo_succ (T : Nat → PHash) (count n : Nat) :
    batchesUpTo T count (n + 1) = batchesUpTo T count n ++ batchAt T count n := by
  simp [batchesUpTo, List.range_succ]

/-- On an unchanged table the first `i` batches are the first `i * count`
entries, as long as the calls before the last one return nonzero cursors. -/
theorem batchesUpTo_const (h : PHash) (count : Nat) (hc : 1 ≤ count) :
    ∀ i, (∀ j, j + 1 < i → cursorAt (fun _ => h) count (j + 1) ≠ 0) →
      batchesUpTo (fun _ => h) count i = flat (h.entries.take (i * count)) := by
  intro i
  induction i with
  | zero => intro _; simp [batchesUpTo, flat]
  | succ i ih =>
    intro hrun
    have hrun2 : ∀ j, j < i → cursorAt (fun _ => h) count (j + 1) ≠ 0 :=
      fun j hj => hrun j (by omega)
    rw [batchesUpTo_succ, ih (fun j hj => hrun2 j (by omega)), batchAt_eq,
      cursorAt_running _ _ hc i hrun2, ← flat_append, Nat.succ_mul, List.take_add]

theorem count_eq_one_of_nodup {l : List Entry} (hnd : l.Nodup) {e : Entry} (he : e ∈ l) :
    l.count e = 1 := by
  induction l with
  | nil => cases he
  | cons x xs ih =>
    rw [List.nodup_cons] at hnd
    rw [List.count_cons]
    rcases List.mem_cons.mp he with rfl | hmem
    · have h0 : xs.count e = 0 := List.count_eq_zero.mpr hnd.1
      simp [h0]
    · have hne : x ≠ e := fun h => hnd.1 (h ▸ hmem)
      have hb : (x == e) = false := beq_eq_false_iff_ne.mpr hne
      simp [hb, ih hnd.2 hmem]

/-- C1. Full-cycle scan completeness without mutation: on a table that stays
the same between calls and holds at least one field, with a fixed count of at
least 1, the scan started at cursor 0 reaches a call (number `k`, from 0) that
returns cursor 0 while the calls before it return nonzero cursors, and the
concatenation of the batches of calls `0 .. k` is exactly the fields of the
table, each followed by its value, so that every entry of the table is
returned as often as the table holds it: exactly once. -/
theorem C1_full_cycle_complete (h : PHash) (count : Nat) (hN : 1 ≤ h.size) (hc : 1 ≤ count) :
    ∃ k, cursorAt (fun _ => h) count (k + 1) = 0 ∧
      (∀ j, j < k → cursorAt (fun _ => h) count (j + 1) ≠ 0) ∧
      batchesUpTo (fun _ => h) count (k + 1) = flat h.entries ∧
      unpair (batchesUpTo (fun _ => h) count (k + 1)) = h.entries ∧
      (∀ e, (unpair (batchesUpTo (fun _ => h) count (k + 1))).count e = h.entries.count e) ∧
      (h.entries.Nodup →
        ∀ e ∈ h.entries, (unpair (batchesUpTo (fun _ => h) count (k + 1))).count e = 1) := by
  have hpos : 0 < count := hc
  have hk1 : (h.size - 1) / count * count ≤ h.size - 1 := Nat.div_mul_le_self _ _
  have hk2 : h.size - 1 < count * ((h.size - 1) / count + 1) := Nat.lt_mul_div_succ _ hpos
  have hcur : ∀ i, i ≤ (h.size - 1) / count → cursorAt (fun _ => h) count i = i * count := by
    intro i
    induction i with
    | zero => intro _; simp [cursorAt]
    | succ i ih =>
      intro hi
      have hle : (i + 1) * count ≤ (h.size - 1) / count * count := Nat.mul_le_mul_right _ hi
      rw [cursorAt_succ, ih (by omega)]
      have e1 : (i + 1) * count = i * count + count := Nat.succ_mul _ _
      unfold nextCursorOf
      split_ifs <;> omega
  have hrun : ∀ j, j < (h.size - 1) / count → cursorAt (fun _ => h) count (j + 1) ≠ 0 := by
    intro j hj
    rw [hcur (j + 1) hj]
    exact Nat.mul_ne_zero (by omega) (by omega)
  have hend : cursorAt (fun _ => h) count ((h.size - 1) / count + 1) = 0 := by
    rw [cursorAt_succ, hcur _ (Nat.le_refl _)]
    have e1 : count * ((h.size - 1) / count + 1) = (h.size - 1) / count * count + count := by
      rw [Nat.mul_comm, Nat.succ_mul]
    unfold nextCursorOf
    split_ifs <;> omega
  have hall : batchesUpTo (fun _ => h) count ((h.size - 1) / count + 1) = flat h.entries := by
    rw [batchesUpTo_const h count hc _ (fun j hj => hrun j (by omega))]
    congr 1
    apply List.take_of_length_le
    have e1 : count * ((h.size - 1) / count + 1) = ((h.size - 1) / count + 1) * count :=
      Nat.mul_comm _ _
    have : h.entries.length = h.size := rfl
    omega
  refine ⟨(h.size - 1) / count, hend, hrun, hall, ?_, ?_, ?_⟩
  · rw [hall, unpair_flat]
  · intro e; rw [hall, unpair_flat]
  · intro hnd e he
    rw [hall, unpair_flat]
    exact count_eq_one_of_nodup hnd he

/-- Witness of C1 on a table of three fields in three buckets, scanned with
count 2. -/
theorem C1_full_cycle_complete_witness :
    ∃ k, cursorAt (fun _ => (⟨[[("a", "1")], [], [("b", "2"), ("c", "3")]]⟩ : PHash)) 2 (k + 1) = 0 ∧
      (∀ j, j < k →
        cursorAt (fun _ => (⟨[[("a", "1")], [], [("b", "2"), ("c", "3")]]⟩ : PHash)) 2 (j + 1) ≠ 0) ∧
      batchesUpTo (fun _ => (⟨[[("a", "1")], [], [("b", "2"), ("c", "3")]]⟩ : PHash)) 2 (k + 1) =
        flat (PHash.entries ⟨[[("a", "1")], [], [("b", "2"), ("c", "3")]]⟩) ∧
      unpair (batchesUpTo (fun _ => (⟨[[("a", "1")], [], [("b", "2"), ("c", "3")]]⟩ : PHash)) 2 (k + 1)) =
        PHash.entries ⟨[[("a", "1")], [], [("b", "2"), ("c", "3")]]⟩ ∧
      (∀ e, (unpair (batchesUpTo
          (fun _ => (⟨[[("a", "1")], [], [("b", "2"), ("c", "3")]]⟩ : PHash)) 2 (k + 1))).count e =
        (PHash.entries ⟨[[("a", "1")], [], [("b", "2"), ("c", "3")]]⟩).count e) ∧
      ((PHash.entries ⟨[[("a", "1")], [], [("b", "2"), ("c", "3")]]⟩).Nodup →
        ∀ e ∈ PHash.entries ⟨[[("a", "1")], [], [("b", "2"), ("c", "3")]]⟩,
          (unpair (batchesUpTo
            (fun _ => (⟨[[("a", "1")], [], [("b", "2"), ("c", "3")]]⟩ : PHash)) 2 (k + 1))).count e = 1) :=
  C1_full_cycle_complete ⟨[[("a", "1")], [], [("b", "2"), ("c", "3")]]⟩ 2 (by decide) (by decide)

/-- C2 as stated fails. Count 1, first call on the table with buckets
`[a] [b]`, second call after `a` was removed: the first call returns `a` and
cursor 1, the second finds cursor 1 out of range and returns cursor 0 with an
empty batch. Field `b` is present in both tables and in no batch. -/
theorem C2_counterexample :
    ¬ (∀ (count : Nat) (T : Nat → PHash) (k : Nat), 1 ≤ count →
        (∀ j, j < k → cursorAt T count (j + 1) ≠ 0) → cursorAt T count (k + 1) = 0 →
        ∀ e : Entry, (∀ i, i ≤ k → e ∈ (T i).entries) →
          ∃ i, i ≤ k ∧ e ∈ unpair (batchAt T count i)) := by
  intro H
  have h := H 1 shrinkingTables 1 (by decide)
    (by intro j hj; interval_cases j; decide) (by decide) ("b", "2")
    (by intro i hi; interval_cases i <;> decide)
  obtain ⟨i, hi, hmem⟩ := h
  interval_cases i
  · revert hmem; decide
  · revert hmem; decide

/-- C2 as amended. For every count of at least 1 and every sequence of tables
seen by the calls `0 .. k` of one scan cycle (call `k` is the first that
returns cursor 0, with arbitrary insertions and removals between calls),
every field that is present in all of these tables and whose position in the
bucket-order enumeration never decreases from one call to the next (`p i` is
its position and `v i` its value at call `i`) appears, with the value it has
at that call, in the batch of at least one call of the cycle. -/
theorem C2_position_nondecreasing_field_returned (count : Nat) (T : Nat → PHash) (k : Nat)
    (hc : 1 ≤ count) (hrun : ∀ j, j < k → cursorAt T count (j + 1) ≠ 0)
    (hend : cursorAt T count (k + 1) = 0) (f : PString) (p : Nat → Nat) (v : Nat → PString)
    (hp : ∀ i, i ≤ k → (T i).entries[p i]? = some (f, v i))
    (hmono : ∀ i, i < k → p i ≤ p (i + 1)) :
    ∃ i, i ≤ k ∧ (T i).entries[p i]? = some (f, v i) ∧
      (f, v i) ∈ unpair (batchAt T count i) := by
  have hlast : p k < k * count + count := by
    have hsz := nextCursorOf_eq_zero hc (by rw [← cursorAt_succ]; exact hend)
    rw [cursorAt_running T count hc k hrun] at hsz
    have hlt : p k < (T k).entries.length :=
      (List.getElem?_eq_some_iff.mp (hp k (Nat.le_refl k))).1
    have : (T k).size = (T k).entries.length := rfl
    omega
  have hwin : ∀ d j, k - j = d → j ≤ k → j * count ≤ p j →
      ∃ i, i ≤ k ∧ i * count ≤ p i ∧ p i < i * count + count := by
    intro d
    induction d with
    | zero =>
      intro j hd hj hle
      have hjk : j = k := by omega
      subst hjk
      exact ⟨j, hj, hle, hlast⟩
    | succ d ih =>
      intro j hd hj hle
      by_cases hin : p j < j * count + count
      · exact ⟨j, hj, hle, hin⟩
      · have hm := hmono j (by omega)
        have e1 : (j + 1) * count = j * count + count := Nat.succ_mul _ _
        exact ih (j + 1) (by omega) (by omega) (by omega)
  obtain ⟨i, hik, hlo, hhi⟩ := hwin (k - 0) 0 rfl (Nat.zero_le k) (by simp)
  refine ⟨i, hik, hp i hik, ?_⟩
  rw [batchAt_eq, unpair_flat,
    cursorAt_running T count hc _ (fun j hj => hrun j (by omega))]
  rw [List.mem_iff_getElem?]
  refine ⟨p i - i * count, ?_⟩
  rw [List.getElem?_take_of_lt (by omega), List.getElem?_drop]
  have : i * count + (p i - i * count) = p i := by omega
  rw [this]
  exact hp i hik

/-- Witness of the amended C2: after the first call `z` is inserted in front
of `b` and `b` is overwritten; `b` moves from position 1 to position 2 and is
returned, with its new value, by the last of the three calls. -/
theorem C2_position_nondecreasing_field_returned_witness :
    1 ≤ 1 ∧ (∀ j, j < 2 → cursorAt shiftingTables 1 (j + 1) ≠ 0) ∧
      cursorAt shiftingTables 1 (2 + 1) = 0 ∧
      (∀ i, i ≤ 2 → (shiftingTables i).entries[(fun n => if n = 0 then 1 else 2) i]? =
        some ("b", (fun n => if n = 0 then "2" else "5") i)) ∧
      (∀ i, i < 2 → (fun n => if n = 0 then 1 else 2) i ≤
        (fun n => if n = 0 then 1 else 2) (i + 1)) ∧
      ∃ i, i ≤ 2 ∧
        (shiftingTables i).entries[(fun n => if n = 0 then 1 else 2) i]? =
          some ("b", (fun n => if n = 0 then "2" else "5") i) ∧
        (("b", (fun n => if n = 0 then "2" else "5") i) : Entry) ∈
          unpair (batchAt shiftingTables 1 i) :=
  ⟨by decide, by decide, by decide, by decide, by decide,
    C2_position_nondecreasing_field_returned 1 shiftingTables 2 (by decide) (by decide)
      (by decide) "b" (fun n => if n = 0 then 1 else 2) (fun n => if n = 0 then "2" else "5")
      (by decide) (by decide)⟩

/-- C3. Scan termination under mutation: for every count of at least 1 and
every sequence of tables presented to the successive calls of a scan started
at cursor 0, if `S` bounds the number of fields of every table presented to a
call of the cycle (a call all of whose predecessors returned a nonzero
cursor), then some call number `k` (from 0) returns cursor 0, no earlier call
does, and the number of calls `k + 1` is at most `ceil(S / count) + 1`. -/
theorem C3_scan_terminates_under_mutation (count : Nat) (T : Nat → PHash) (S : Nat)
    (hc : 1 ≤ count)
    (hS : ∀ i, (∀ j, j < i → cursorAt T count (j + 1) ≠ 0) → (T i).size ≤ S) :
    ∃ k, k + 1 ≤ (S + count - 1) / count + 1 ∧ cursorAt T count (k + 1) = 0 ∧
      ∀ j, j < k → cursorAt T count (j + 1) ≠ 0 := by
  have hpos : 0 < count := hc
  have hceil : S + count - 1 < count * ((S + count - 1) / count + 1) :=
    Nat.lt_mul_div_succ _ hpos
  have hex : ∃ k, k ≤ (S + count - 1) / count ∧ cursorAt T count (k + 1) = 0 := by
    by_contra hno
    have hall : ∀ j, j < (S + count - 1) / count + 1 → cursorAt T count (j + 1) ≠ 0 := by
      intro j hj h0
      exact hno ⟨j, by omega, h0⟩
    have hrun : ∀ j, j < (S + count - 1) / count → cursorAt T count (j + 1) ≠ 0 :=
      fun j hj => hall j (by omega)
    have hne := hall ((S + count - 1) / count) (Nat.lt_succ_self _)
    rw [cursorAt_succ] at hne
    have hlt := (nextCursorOf_ne_zero hc hne).2
    rw [cursorAt_running T count hc _ hrun] at hlt
    have hsz := hS ((S + count - 1) / count) hrun
    have e1 : count * ((S + count - 1) / count + 1) = (S + count - 1) / count * count + count := by
      rw [Nat.mul_comm, Nat.succ_mul]
    omega
  have hex2 : ∃ k, cursorAt T count (k + 1) = 0 := by
    obtain ⟨k, _, hk⟩ := hex
    exact ⟨k, hk⟩
  refine ⟨Nat.find hex2, ?_, Nat.find_spec hex2, ?_⟩
  · obtain ⟨k, hk, h0⟩ := hex
    have := Nat.find_min' hex2 h0
    omega
  · intro j hj
    exact Nat.find_min hex2 hj

/-- Witness of C3: the tables of `growingTables` never hold more than 3
fields; with count 1 the cycle ends within `3 + 1` calls. -/
theorem C3_scan_terminates_under_mutation_witness :
    1 ≤ 1 ∧
      (∀ i, (∀ j, j < i → cursorAt growingTables 1 (j + 1) ≠ 0) → (growingTables i).size ≤ 3) ∧
      ∃ k, k + 1 ≤ (3 + 1 - 1) / 1 + 1 ∧ cursorAt growingTables 1 (k + 1) = 0 ∧
        ∀ j, j < k → cursorAt growingTables 1 (j + 1) ≠ 0 :=
  have hS : ∀ i, (∀ j, j < i → cursorAt growingTables 1 (j + 1) ≠ 0) →
      (growingTables i).size ≤ 3 := by
    intro i _
    unfold growingTables
    split <;> decide
  ⟨by decide, hS, C3_scan_terminates_under_mutation 1 growingTables 3 (by decide) hS⟩

/-- C4. An out-of-range cursor ends the cycle instead of failing: for every
table, every count and every cursor greater than or equal to the number of
fields in the map, `HScanKey` appends nothing to `res` and returns cursor 0;
on an empty map this is so for every cursor. -/
theorem C4_out_of_range_cursor (hash : PHash) (cursor count : Nat) (res : List PString)
    (h : cursor ≥ hash.size) :
    HScanKey hash cursor count res = (0, res) ∧
      (hash.size = 0 → ∀ c n : Nat, HScanKey hash c n res = (0, res)) := by
  have key : ∀ c n : Nat, c ≥ hash.size → HScanKey hash c n res = (0, res) := by
    intro c n hge
    rw [HScanKey_spec]
    have hnil : hash.entries.drop c = [] := List.drop_eq_nil_of_le hge
    simp [nextCursorOf, hge, hnil, flat]
  exact ⟨key cursor count h, fun h0 c n => key c n (by omega)⟩

/-- Witness of C4: cursor 5 on a table of two fields. -/
theorem C4_out_of_range_cursor_witness :
    5 ≥ (PHash.size ⟨[[("a", "1")], [("b", "2")]]⟩) ∧
      (HScanKey ⟨[[("a", "1")], [("b", "2")]]⟩ 5 10 ["x"] = (0, ["x"]) ∧
        (PHash.size ⟨[[("a", "1")], [("b", "2")]]⟩ = 0 →
          ∀ c n : Nat, HScanKey ⟨[[("a", "1")], [("b", "2")]]⟩ c n ["x"] = (0, ["x"]))) :=
  ⟨by decide, C4_out_of_range_cursor ⟨[[("a", "1")], [("b", "2")]]⟩ 5 10 ["x"] (by decide)⟩

/-! ## The key table and the table operations -/

theorem PStore.get_put_same (s : PStore) (k : PString) (o : PObject) :
    (s.put k o).get k = some o := by
  induction s with
  | nil => simp [PStore.put, PStore.get]
  | cons p rest ih =>
    obtain ⟨k0, o0⟩ := p
    by_cases h : k0 = k
    · simp [PStore.put, PStore.get, h]
    · simp [PStore.put, PStore.get, h, ih]

theorem PStore.get_put_ne (s : PStore) {k k2 : PString} (o : PObject) (hne : k2 ≠ k) :
    (s.put k o).get k2 = s.get k2 := by
  induction s with
  | nil => simp [PStore.put, PStore.get, Ne.symm hne]
  | cons p rest ih =>
    obtain ⟨k0, o0⟩ := p
    by_cases h : k0 = k
    · subst h
      simp [PStore.put, PStore.get, Ne.symm hne]
    · by_cases h2 : k0 = k2
      · subst h2
        simp [PStore.put, PStore.get, h]
      · simp [PStore.put, PStore.get, h, h2, ih]

theorem PStore.put_get_self (s : PStore) {k : PString} {o : PObject} (h : s.get k = some o) :
    s.put k o = s := by
  induction s with
  | nil => simp [PStore.get] at h
  | cons p rest ih =>
    obtain ⟨k0, o0⟩ := p
    by_cases hk : k0 = k
    · simp [PStore.get, hk] at h
      simp [PStore.put, hk, h]
    · simp [PStore.get, hk] at h
      simp [PStore.put, hk, ih h]

theorem findIn_append (l1 l2 : List Entry) (k : PString) :
    findIn (l1 ++ l2) k = (findIn l1 k).orElse (fun _ => findIn l2 k) := by
  induction l1 with
  | nil => simp [findIn]
  | cons e l1 ih =>
    by_cases h : e.1 = k
    · simp [findIn, h]
    · simp [findIn, h, ih]

theorem findIn_setSecond (key val : PString) (l : List Entry) (k : PString) :
    findIn (setSecond key val l) k =
      if k = key ∧ (findIn l key).isSome then some val else findIn l k := by
  induction l with
  | nil => simp [setSecond, findIn]
  | cons e l ih =>
    by_cases h : e.1 = key
    · by_cases h2 : k = key
      · simp [setSecond, findIn, h, h2]
      · have h3 : ¬ key = k := fun h => h2 h.symm
        simp [setSecond, findIn, h, h2, h3]
    · by_cases h2 : e.1 = k
      · have h3 : ¬ k = key := fun hk => h (h2.trans hk)
        simp [setSecond, findIn, h, h2, h3]
      · simp [setSecond, findIn, h, h2, ih]

theorem setSecond_append (key val : PString) (l1 l2 : List Entry) :
    setSecond key val (l1 ++ l2) =
      if (findIn l1 key).isSome then setSecond key val l1 ++ l2
      else l1 ++ setSecond key val l2 := by
  induction l1 with
  | nil => simp [setSecond, findIn]
  | cons e l1 ih =>
    by_cases h : e.1 = key
    · simp [setSecond, findIn, h]
    · show setSecond key val (e :: (l1 ++ l2)) = _
      simp only [setSecond, findIn, h, if_false, ih]
      split_ifs <;> simp

theorem assignBuckets_flatten (key val : PString) (bs : List (List Entry)) :
    (assignBuckets key val bs).flatten = setSecond key val bs.flatten := by
  induction bs with
  | nil => simp [assignBuckets, setSecond]
  | cons b rest ih =>
    simp only [assignBuckets, List.flatten_cons, setSecond_append]
    split_ifs
    · simp
    · simp [ih]

theorem putInBucket_flatten (e : Entry) (bs : List (List Entry)) (i : Nat) :
    ∃ l1 l2, bs.flatten = l1 ++ l2 ∧ (putInBucket e bs i).flatten = l1 ++ e :: l2 := by
  induction bs generalizing i with
  | nil => exact ⟨[], [], by simp, by simp [putInBucket]⟩
  | cons b rest ih =>
    cases i with
    | zero => exact ⟨b, rest.flatten, by simp, by simp [putInBucket]⟩
    | succ i =>
      obtain ⟨l1, l2, h1, h2⟩ := ih i
      exact ⟨b ++ l1, l2, by simp [h1], by simp [putInBucket, h2]⟩

theorem findIn_insert_mid (e : Entry) (l1 l2 : List Entry) (k : PString)
    (habs : findIn (l1 ++ l2) e.1 = none) :
    findIn (l1 ++ e :: l2) k = if k = e.1 then some e.2 else findIn (l1 ++ l2) k := by
  rw [findIn_append] at habs ⊢
  rw [findIn_append]
  by_cases hk : k = e.1
  · subst hk
    cases h1 : findIn l1 e.1 with
    | none => simp [findIn]
    | some x => simp [h1] at habs
  · have hk2 : ¬ e.1 = k := fun h => hk h.symm
    simp [findIn, hk, hk2]

theorem findIn_filter (p : Entry → Bool) (key : PString)
    (hp : ∀ e : Entry, p e = true ↔ e.1 ≠ key) (l : List Entry) (k : PString) :
    findIn (l.filter p) k = if k = key then none else findIn l k := by
  induction l with
  | nil => simp [findIn]
  | cons e l ih =>
    rw [List.filter_cons]
    by_cases hpe : p e = true
    · have hne : e.1 ≠ key := (hp e).mp hpe
      rw [if_pos hpe]
      by_cases h2 : e.1 = k
      · have h3 : ¬ k = key := fun hk => hne (h2.trans hk)
        simp [findIn, h2, h3]
      · simp [findIn, h2, ih]
    · have heq : e.1 = key := by
        by_contra hne
        exact hpe ((hp e).mpr hne)
      rw [if_neg hpe, ih]
      by_cases h2 : k = key
      · simp [h2]
      · have h3 : ¬ e.1 = k := fun hk => h2 (hk.symm.trans heq)
        simp [findIn, h2, h3]

theorem flatten_map_filter (p : Entry → Bool) (bs : List (List Entry)) :
    (bs.map (fun b => b.filter p)).flatten = bs.flatten.filter p := by
  induction bs with
  | nil => rfl
  | cons b rest ih => simp only [List.map_cons, List.flatten_cons, List.filter_append, ih]

theorem PHash.find_assign (h : PHash) (key val k : PString) :
    (h.assign key val).find k =
      if k = key ∧ (h.find key).isSome then some val else h.find k := by
  simp only [PHash.find, PHash.assign, PHash.entries, assignBuckets_flatten, findIn_setSecond]

theorem PHash.find_insert (hashOf : PString → Nat) (h : PHash) (e : Entry) (k : PString)
    (habs : h.find e.1 = none) :
    (h.insert hashOf e).2 = true ∧
      (h.insert hashOf e).1.find k = if k = e.1 then some e.2 else h.find k := by
  obtain ⟨l1, l2, h1, h2⟩ := putInBucket_flatten e h.buckets (hashOf e.1 % h.bucket_count)
  have habs2 : findIn h.buckets.flatten e.1 = none := habs
  simp only [PHash.insert, PHash.find, PHash.entries, habs2, h2, true_and]
  rw [h1] at habs2
  rw [findIn_insert_mid e l1 l2 k habs2, h1]

theorem PHash.insert_present (hashOf : PString → Nat) (h : PHash) (e : Entry) {x : PString}
    (hpre : h.find e.1 = some x) : h.insert hashOf e = (h, false) := by
  simp [PHash.insert, hpre]

theorem PHash.find_erase (h : PHash) (key k : PString) :
    (h.erase key).1.find k = if k = key then none else h.find k := by
  unfold PHash.erase
  cases hf : h.find key with
  | none =>
    by_cases hk : k = key
    · simp [hk, hf]
    · simp [hk]
  | some x =>
    simp only [PHash.find, PHash.entries, flatten_map_filter]
    exact findIn_filter _ key (fun e => by simp) _ k

theorem PHash.erase_snd (h : PHash) (key : PString) :
    (h.erase key).2 = (h.find key).isSome := by
  unfold PHash.erase
  cases h.find key <;> rfl

theorem find_set_hash_force (hashOf : PString → Nat) (h : PHash) (key val k : PString) :
    (_set_hash_force hashOf h key val).find k = if k = key then some val else h.find k := by
  unfold _set_hash_force
  cases hf : h.find key with
  | some x => simp [PHash.find_assign, hf]
  | none => simpa using (PHash.find_insert hashOf h (key, val) k hf).2

/-! ## Command scenarios -/

/-- C5. Concrete scenario: from a store in which key `h` is absent, the
commands `hset h f1 1`, `hget h f1`, `hincrby h f1 4`, `hgetall h`,
`hdel h f1`, `hexists h f1` reply, in order, integer 1, bulk `1`, integer 5,
the multi-bulk of 2 elements `f1`, `5`, integer 1, integer 0, each with
status OK; after the last field is deleted the key still holds an empty hash.
`Strtol` is any parser that reads the text `1` as 1. -/
theorem C5_concrete_scenario (hashOf : PString → Nat) (Strtol : PString → Option Int)
    (store : PStore) (habs : store.get "h" = none) (hS : Strtol "1" = some 1) :
    let o1 := hset hashOf ["hset", "h", "f1", "1"] store []
    let o2 := hget ["hget", "h", "f1"] o1.2.1 o1.2.2
    let o3 := hincrby hashOf Strtol ["hincrby", "h", "f1", "4"] o2.2.1 o2.2.2
    let o4 := hgetall ["hgetall", "h"] o3.2.1 o3.2.2
    let o5 := hdel ["hdel", "h", "f1"] o4.2.1 o4.2.2
    let o6 := hexists ["hexists", "h", "f1"] o5.2.1 o5.2.2
    (o1.1 = PError_ok ∧ o2.1 = PError_ok ∧ o3.1 = PError_ok ∧ o4.1 = PError_ok ∧
      o5.1 = PError_ok ∧ o6.1 = PError_ok) ∧
    o1.2.2 = [FormatInt 1] ∧
    o2.2.2 = o1.2.2 ++ [FormatBulk "1"] ∧
    o3.2.2 = o2.2.2 ++ [FormatInt 5] ∧
    o4.2.2 = o3.2.2 ++ [PreFormatMultiBulk 2, FormatBulk "f1", FormatBulk "5"] ∧
    o5.2.2 = o4.2.2 ++ [FormatInt 1] ∧
    o6.2.2 = o5.2.2 ++ [FormatInt 0] ∧
    o6.2.1.get "h" = some (PObject.hash ⟨[[]]⟩) := by
  have e1 : ∀ r, hset hashOf ["hset", "h", "f1", "1"] store r =
      (PError_ok, (store.put "h" PObject.CreateHash).put "h" (PObject.hash ⟨[[("f1", "1")]]⟩),
        r ++ [FormatInt 1]) := by
    intro r
    simp [hset, GET_OR_SET_HASH, GetValueByType, habs, SetValue, arg, storeHash, _set_hash_force,
      PObject.CreateHash, PObject.CastHash, PHash.find, PHash.entries, findIn, PHash.insert,
      PHash.bucket_count, putInBucket, Nat.mod_one]
  have g1 : ∀ o, ((store.put "h" PObject.CreateHash).put "h" o).get "h" = some o :=
    fun o => PStore.get_put_same _ _ _
  have e2 : ∀ r, hget ["hget", "h", "f1"]
      ((store.put "h" PObject.CreateHash).put "h" (PObject.hash ⟨[[("f1", "1")]]⟩)) r =
      (PError_ok, (store.put "h" PObject.CreateHash).put "h" (PObject.hash ⟨[[("f1", "1")]]⟩),
        r ++ [FormatBulk "1"]) := by
    intro r
    simp [hget, GET_HASH, GetValueByType, g1, arg, PObject.type, PObject.CastHash, replyField,
      PHash.find, PHash.entries, findIn]
  have a4 : atoi "4" = 4 := by decide
  have l5 : toLong 5 = 5 := by decide
  have f5 : fmtLong 5 = "5" := by decide
  have e3 : ∀ r, hincrby hashOf Strtol ["hincrby", "h", "f1", "4"]
      ((store.put "h" PObject.CreateHash).put "h" (PObject.hash ⟨[[("f1", "1")]]⟩)) r =
      (PError_ok,
        ((store.put "h" PObject.CreateHash).put "h" (PObject.hash ⟨[[("f1", "1")]]⟩)).put "h"
          (PObject.hash ⟨[[("f1", "5")]]⟩),
        r ++ [FormatInt 5]) := by
    intro r
    simp [hincrby, GET_OR_SET_HASH, GetValueByType, g1, arg, PObject.type, PObject.CastHash,
      PHash.find, PHash.entries, findIn, hS, a4, l5, f5, storeHash, PHash.assign, assignBuckets,
      setSecond]
  have g2 : ∀ (t : PStore) (o : PObject), (t.put "h" o).get "h" = some o :=
    fun t o => PStore.get_put_same _ _ _
  have e4 : ∀ (t : PStore) r, hgetall ["hgetall", "h"]
      (t.put "h" (PObject.hash ⟨[[("f1", "5")]]⟩)) r =
      (PError_ok, t.put "h" (PObject.hash ⟨[[("f1", "5")]]⟩),
        r ++ [PreFormatMultiBulk 2, FormatBulk "f1", FormatBulk "5"]) := by
    intro t r
    simp [hgetall, GET_HASH, GetValueByType, g2, arg, PObject.type, PObject.CastHash,
      PHash.size, PHash.entries]
  have e5 : ∀ (t : PStore) r, hdel ["hdel", "h", "f1"]
      (t.put "h" (PObject.hash ⟨[[("f1", "5")]]⟩)) r =
      (PError_ok, (t.put "h" (PObject.hash ⟨[[("f1", "5")]]⟩)).put "h" (PObject.hash ⟨[[]]⟩),
        r ++ [FormatInt 1]) := by
    intro t r
    simp [hdel, GetValueByType, g2, arg, PObject.type, PObject.CastHash, hdelLoop, PHash.erase,
      PHash.find, PHash.entries, findIn, storeHash]
  have e6 : ∀ (t : PStore) r, hexists ["hexists", "h", "f1"]
      (t.put "h" (PObject.hash ⟨[[]]⟩)) r =
      (PError_ok, t.put "h" (PObject.hash ⟨[[]]⟩), r ++ [FormatInt 0]) := by
    intro t r
    simp [hexists, GET_HASH, GetValueByType, g2, arg, PObject.type, PObject.CastHash,
      PHash.find, PHash.entries, findIn]
  simp only [e1, e2, e3, e4, e5, e6, g2]
  simp

/-- Witness of C5 on the empty store, with every key hashed to bucket 0 and
the decimal parser for `Strtol`. -/
theorem C5_concrete_scenario_witness :
    PStore.get [] "h" = none ∧ decimalStrtol "1" = some 1 ∧
      (let o1 := hset (fun _ => 0) ["hset", "h", "f1", "1"] [] []
       let o2 := hget ["hget", "h", "f1"] o1.2.1 o1.2.2
       let o3 := hincrby (fun _ => 0) decimalStrtol ["hincrby", "h", "f1", "4"] o2.2.1 o2.2.2
       let o4 := hgetall ["hgetall", "h"] o3.2.1 o3.2.2
       let o5 := hdel ["hdel", "h", "f1"] o4.2.1 o4.2.2
       let o6 := hexists ["hexists", "h", "f1"] o5.2.1 o5.2.2
       (o1.1 = PError_ok ∧ o2.1 = PError_ok ∧ o3.1 = PError_ok ∧ o4.1 = PError_ok ∧
         o5.1 = PError_ok ∧ o6.1 = PError_ok) ∧
       o1.2.2 = [FormatInt 1] ∧
       o2.2.2 = o1.2.2 ++ [FormatBulk "1"] ∧
       o3.2.2 = o2.2.2 ++ [FormatInt 5] ∧
       o4.2.2 = o3.2.2 ++ [PreFormatMultiBulk 2, FormatBulk "f1", FormatBulk "5"] ∧
       o5.2.2 = o4.2.2 ++ [FormatInt 1] ∧
       o6.2.2 = o5.2.2 ++ [FormatInt 0] ∧
       o6.2.1.get "h" = some (PObject.hash ⟨[[]]⟩)) :=
  ⟨rfl, by decide, C5_concrete_scenario (fun _ => 0) decimalStrtol [] rfl (by decide)⟩

/-! ## Handler lemmas -/

theorem GET_OR_SET_HASH_spec {store : PStore} {k : PString} (hk : HashOrAbsent store k) :
    ∃ s, GET_OR_SET_HASH store k = .ok (s, curHash store k) ∧
      (∀ o, (s.put k o).get k = some o) ∧
      (∀ o k2, k2 ≠ k → (s.put k o).get k2 = store.get k2) ∧
      (∀ h, store.get k = some (PObject.hash h) → s = store) := by
  rcases hk with hnone | ⟨h, hsome⟩
  · refine ⟨store.put k PObject.CreateHash, ?_, fun o => PStore.get_put_same _ _ _, ?_, ?_⟩
    · simp [GET_OR_SET_HASH, GetValueByType, hnone, SetValue, curHash]
    · intro o k2 hne
      rw [PStore.get_put_ne _ _ hne, PStore.get_put_ne _ _ hne]
    · intro h hh
      rw [hnone] at hh
      cases hh
  · refine ⟨store, ?_, fun o => PStore.get_put_same _ _ _,
      fun o k2 hne => PStore.get_put_ne _ _ hne, fun _ _ => rfl⟩
    simp [GET_OR_SET_HASH, GetValueByType, hsome, PObject.type, PObject.CastHash, curHash]

theorem fieldOf_curHash {store : PStore} {k : PString} (hk : HashOrAbsent store k)
    (f : PString) : fieldOf store k f = (curHash store k).find f := by
  rcases hk with hnone | ⟨h, hsome⟩
  · simp [fieldOf, curHash, hnone, PObject.CreateHash, PObject.CastHash, PHash.find,
      PHash.entries, findIn]
  · simp [fieldOf, curHash, hsome]

theorem fieldOf_of_get {store : PStore} {k : PString} {h : PHash}
    (hg : store.get k = some (PObject.hash h)) (f : PString) :
    fieldOf store k f = h.find f := by
  simp [fieldOf, hg]

theorem fieldOf_some {store : PStore} {k f s : PString} (hf : fieldOf store k f = some s) :
    ∃ h, store.get k = some (PObject.hash h) ∧ h.find f = some s := by
  unfold fieldOf at hf
  split at hf
  · rename_i h hg
    exact ⟨h, hg, hf⟩
  · cases hf

theorem fieldOf_congr {s1 s2 : PStore} {k : PString} (hg : s1.get k = s2.get k) (f : PString) :
    fieldOf s1 k f = fieldOf s2 k f := by
  simp [fieldOf, hg]

theorem GET_HASH_of_get {store : PStore} {k : PString} {h : PHash}
    (hg : store.get k = some (PObject.hash h)) : GET_HASH store k = .ok h := by
  simp [GET_HASH, GetValueByType, hg, PObject.type, PObject.CastHash]

theorem hset_spec (hashOf : PString → Nat) {store : PStore} {k : PString}
    (hk : HashOrAbsent store k) (c f v : PString) (r : UnboundedBuffer) :
    ∃ s, hset hashOf [c, k, f, v] store r = (PError_ok, s, r ++ [FormatInt 1]) ∧
      s.get k = some (PObject.hash (_set_hash_force hashOf (curHash store k) f v)) ∧
      ∀ k2, k2 ≠ k → s.get k2 = store.get k2 := by
  obtain ⟨s, hs, g1, g2, _⟩ := GET_OR_SET_HASH_spec hk
  refine ⟨storeHash s k (_set_hash_force hashOf (curHash store k) f v), ?_, g1 _, fun k2 h2 => g2 _ k2 h2⟩
  simp [hset, arg, hs]

theorem hget_spec {store : PStore} {k : PString} {h : PHash}
    (hg : store.get k = some (PObject.hash h)) (c f : PString) (r : UnboundedBuffer) :
    hget [c, k, f] store r = (PError_ok, store, r ++ [replyField h f]) := by
  simp [hget, arg, GET_HASH_of_get hg]

theorem hdel_one_spec {store : PStore} {k : PString} {h : PHash}
    (hg : store.get k = some (PObject.hash h)) (c f : PString) (r : UnboundedBuffer) :
    hdel [c, k, f] store r =
      (PError_ok, store.put k (PObject.hash (h.erase f).1),
        r ++ [FormatInt (if (h.erase f).2 then 1 else 0)]) := by
  simp [hdel, arg, GetValueByType, hg, PObject.type, PObject.CastHash, hdelLoop, storeHash]

theorem hsetnx_spec (hashOf : PString → Nat) {store : PStore} {k : PString}
    (hk : HashOrAbsent store k) (c f v : PString) (r : UnboundedBuffer) :
    ∃ s, hsetnx hashOf [c, k, f, v] store r =
        (PError_ok, s, r ++ [FormatInt (if ((curHash store k).insert hashOf (f, v)).2 then 1 else 0)]) ∧
      s.get k = some (PObject.hash ((curHash store k).insert hashOf (f, v)).1) ∧
      (∀ k2, k2 ≠ k → s.get k2 = store.get k2) ∧
      (∀ h, store.get k = some (PObject.hash h) →
        s = store.put k (PObject.hash ((curHash store k).insert hashOf (f, v)).1)) := by
  obtain ⟨s, hs, g1, g2, g3⟩ := GET_OR_SET_HASH_spec hk
  refine ⟨storeHash s k ((curHash store k).insert hashOf (f, v)).1, ?_, g1 _,
    fun k2 h2 => g2 _ k2 h2, ?_⟩
  · simp only [hsetnx, arg, hs, _set_hash_if_notexist, List.getD_cons_succ, List.getD_cons_zero]
    split_ifs <;> rfl
  · intro h hh
    rw [g3 h hh]
    rfl

/-- C6. Set/get/delete round trip: for every store in which key `k` is
absent or holds a hash, and every field `f` and value `v`, `hget k f` issued
after `hset k f v` replies the bulk value `v`, and `hget k f` issued after a
subsequent `hdel k f` replies null with status OK. -/
theorem C6_set_get_del_round_trip (hashOf : PString → Nat) (store : PStore) (k f v : PString)
    (hk : HashOrAbsent store k) :
    let o1 := hset hashOf ["hset", k, f, v] store []
    let o2 := hget ["hget", k, f] o1.2.1 []
    let o3 := hdel ["hdel", k, f] o2.2.1 []
    let o4 := hget ["hget", k, f] o3.2.1 []
    o1.1 = PError_ok ∧ (o2.1 = PError_ok ∧ o2.2.2 = [FormatBulk v]) ∧
      o3.1 = PError_ok ∧ (o4.1 = PError_ok ∧ o4.2.2 = [FormatNull]) := by
  obtain ⟨s1, e1, g1, _⟩ := hset_spec hashOf hk "hset" f v []
  have hf1 : (_set_hash_force hashOf (curHash store k) f v).find f = some v := by
    rw [find_set_hash_force]; simp
  have e2 := hget_spec g1 "hget" f []
  have e3 := hdel_one_spec g1 "hdel" f []
  have g3 : (s1.put k (PObject.hash
      ((_set_hash_force hashOf (curHash store k) f v).erase f).1)).get k = some _ :=
    PStore.get_put_same _ _ _
  have e4 := hget_spec g3 "hget" f []
  have hf4 : ((_set_hash_force hashOf (curHash store k) f v).erase f).1.find f = none := by
    rw [PHash.find_erase]; simp
  simp only [e1, e2, e3, e4, replyField, hf1, hf4]
  simp

/-- Witness of C6 on a store whose key `k` holds a hash with another field. -/
theorem C6_set_get_del_round_trip_witness :
    HashOrAbsent [("k", PObject.hash ⟨[[("g", "0")]]⟩)] "k" ∧
      (let o1 := hset String.length ["hset", "k", "f", "v"] [("k", PObject.hash ⟨[[("g", "0")]]⟩)] []
       let o2 := hget ["hget", "k", "f"] o1.2.1 []
       let o3 := hdel ["hdel", "k", "f"] o2.2.1 []
       let o4 := hget ["hget", "k", "f"] o3.2.1 []
       o1.1 = PError_ok ∧ (o2.1 = PError_ok ∧ o2.2.2 = [FormatBulk "v"]) ∧
         o3.1 = PError_ok ∧ (o4.1 = PError_ok ∧ o4.2.2 = [FormatNull])) :=
  ⟨Or.inr ⟨_, rfl⟩,
    C6_set_get_del_round_trip String.length [("k", PObject.hash ⟨[[("g", "0")]]⟩)] "k" "f" "v"
      (Or.inr ⟨_, rfl⟩)⟩

/-- C7. Set-field-if-absent never overwrites: on a key that is absent or
holds a hash, `hsetnx k f v` replies 1 and binds `f` to `v` when `f` was
absent, leaving every other field and key as it was; it replies 0 and leaves
the whole store unchanged when `f` was present. After `hset k f a`,
`hsetnx k f b` replies 0 and `hget k f` still replies `a`. -/
theorem C7_hsetnx_never_overwrites (hashOf : PString → Nat) (store : PStore) (k f v : PString)
    (reply : UnboundedBuffer) (hk : HashOrAbsent store k) :
    (fieldOf store k f = none →
      let o := hsetnx hashOf ["hsetnx", k, f, v] store reply
      o.1 = PError_ok ∧ o.2.2 = reply ++ [FormatInt 1] ∧ fieldOf o.2.1 k f = some v ∧
        (∀ f2, f2 ≠ f → fieldOf o.2.1 k f2 = fieldOf store k f2) ∧
        (∀ k2, k2 ≠ k → o.2.1.get k2 = store.get k2)) ∧
    (∀ x, fieldOf store k f = some x →
      hsetnx hashOf ["hsetnx", k, f, v] store reply = (PError_ok, store, reply ++ [FormatInt 0])) ∧
    (let o1 := hset hashOf ["hset", k, f, "a"] store []
     let o2 := hsetnx hashOf ["hsetnx", k, f, "b"] o1.2.1 []
     let o3 := hget ["hget", k, f] o2.2.1 []
     (o2.1 = PError_ok ∧ o2.2.2 = [FormatInt 0]) ∧ (o3.1 = PError_ok ∧ o3.2.2 = [FormatBulk "a"])) := by
  have present : ∀ (st : PStore) (r : UnboundedBuffer) (w x : PString), fieldOf st k f = some x →
      hsetnx hashOf ["hsetnx", k, f, w] st r = (PError_ok, st, r ++ [FormatInt 0]) := by
    intro st r w x hx
    obtain ⟨h, hg, hfind⟩ := fieldOf_some hx
    have hk2 : HashOrAbsent st k := Or.inr ⟨h, hg⟩
    obtain ⟨s, e, _, _, g4⟩ := hsetnx_spec hashOf hk2 "hsetnx" f w r
    have hcur : curHash st k = h := by simp [curHash, hg]
    have hins : h.insert hashOf (f, w) = (h, false) := PHash.insert_present hashOf h (f, w) hfind
    rw [e, g4 h hg, hcur, hins]
    simp [PStore.put_get_self st hg]
  refine ⟨?_, fun x hx => present store reply v x hx, ?_⟩
  · intro habs
    obtain ⟨s, e, g1, g2, _⟩ := hsetnx_spec hashOf hk "hsetnx" f v reply
    have hfind : (curHash store k).find f = none := by rw [← fieldOf_curHash hk]; exact habs
    have hins := PHash.find_insert hashOf (curHash store k) (f, v)
    rw [e]
    refine ⟨rfl, ?_, ?_, ?_, g2⟩
    · simp [(hins f hfind).1]
    · rw [fieldOf_of_get g1, (hins f hfind).2]; simp
    · intro f2 hne
      rw [fieldOf_of_get g1, (hins f2 hfind).2, fieldOf_curHash hk]
      simp [hne]
  · obtain ⟨s1, e1, g1, _⟩ := hset_spec hashOf hk "hset" f "a" []
    have hf1 : fieldOf s1 k f = some "a" := by
      rw [fieldOf_of_get g1, find_set_hash_force]; simp
    have e2 := present s1 [] "b" "a" hf1
    have e3 := hget_spec g1 "hget" f []
    have hf1b : (_set_hash_force hashOf (curHash store k) f "a").find f = some "a" := by
      rw [find_set_hash_force]; simp
    simp only [e1, e2, e3, replyField, hf1b]
    simp

/-- Witness of C7 on the empty store. -/
theorem C7_hsetnx_never_overwrites_witness :
    HashOrAbsent [] "k" ∧
    ((fieldOf [] "k" "f" = none →
      let o := hsetnx String.length ["hsetnx", "k", "f", "v"] [] []
      o.1 = PError_ok ∧ o.2.2 = [] ++ [FormatInt 1] ∧ fieldOf o.2.1 "k" "f" = some "v" ∧
        (∀ f2, f2 ≠ "f" → fieldOf o.2.1 "k" f2 = fieldOf [] "k" f2) ∧
        (∀ k2, k2 ≠ "k" → o.2.1.get k2 = PStore.get [] k2)) ∧
    (∀ x, fieldOf [] "k" "f" = some x →
      hsetnx String.length ["hsetnx", "k", "f", "v"] [] [] = (PError_ok, [], [] ++ [FormatInt 0])) ∧
    (let o1 := hset String.length ["hset", "k", "f", "a"] [] []
     let o2 := hsetnx String.length ["hsetnx", "k", "f", "b"] o1.2.1 []
     let o3 := hget ["hget", "k", "f"] o2.2.1 []
     (o2.1 = PError_ok ∧ o2.2.2 = [FormatInt 0]) ∧
       (o3.1 = PError_ok ∧ o3.2.2 = [FormatBulk "a"]))) :=
  ⟨Or.inl rfl, C7_hsetnx_never_overwrites String.length [] "k" "f" "v" [] (Or.inl rfl)⟩

/-- C8. Increment-integer rejects a non-integer stored value atomically: when
field `f` of key `k` is present with a value that `Strtol` rejects, `hincrby`
returns `PError_nan` for every delta argument, replies that error, and leaves
the whole store as it was. -/
theorem C8_hincrby_nan_leaves_store (hashOf : PString → Nat) (Strtol : PString → Option Int)
    (store : PStore) (k f delta s : PString) (reply : UnboundedBuffer)
    (hf : fieldOf store k f = some s) (hbad : Strtol s = none) :
    hincrby hashOf Strtol ["hincrby", k, f, delta] store reply =
      (PError_nan, store, reply ++ [ReplyError PError_nan]) := by
  obtain ⟨h, hg, hfind⟩ := fieldOf_some hf
  simp [hincrby, arg, GET_OR_SET_HASH, GetValueByType, hg, PObject.type, PObject.CastHash,
    hfind, hbad]

/-- Witness of C8: field `f` holds `abc`, which the decimal parser rejects. -/
theorem C8_hincrby_nan_leaves_store_witness :
    fieldOf [("k", PObject.hash ⟨[[("f", "abc")], [("g", "7")]]⟩)] "k" "f" = some "abc" ∧
      decimalStrtol "abc" = none ∧
      hincrby String.length decimalStrtol ["hincrby", "k", "f", "3"]
          [("k", PObject.hash ⟨[[("f", "abc")], [("g", "7")]]⟩)] [] =
        (PError_nan, [("k", PObject.hash ⟨[[("f", "abc")], [("g", "7")]]⟩)],
          [] ++ [ReplyError PError_nan]) :=
  ⟨by decide, by decide,
    C8_hincrby_nan_leaves_store String.length decimalStrtol
      [("k", PObject.hash ⟨[[("f", "abc")], [("g", "7")]]⟩)] "k" "f" "3" "abc" []
      (by decide) (by decide)⟩

/-! ## Decimal text and `atoi` -/

theorem digitChar_facts (m : Nat) (hm : m < 10) :
    (digitChar m).isDigit = true ∧ (digitChar m).toNat - 48 = m ∧
      isspace (digitChar m) = false ∧ digitChar m ≠ '-' ∧ digitChar m ≠ '+' := by
  interval_cases m <;> decide

theorem atoiLoop_natDigits (fuel : Nat) : ∀ (n : Nat) (acc : List Char), n < fuel →
    atoiLoop (natDigits fuel n acc) 0 = atoiLoop acc n := by
  induction fuel with
  | zero => intro n acc h; omega
  | succ fuel ih =>
    intro n acc h
    obtain ⟨hdig, hval, _, _, _⟩ := digitChar_facts (n % 10) (Nat.mod_lt _ (by decide))
    unfold natDigits
    simp only []
    split_ifs with h0
    · have hn : n % 10 = n := by omega
      simp only [atoiLoop, hdig, hval, if_true, Nat.zero_mul, Nat.zero_add]
      rw [hn]
    · rw [ih (n / 10) _ (by omega)]
      have : n / 10 * 10 + n % 10 = n := by omega
      simp [atoiLoop, hdig, hval, this]

theorem natDigits_head (fuel : Nat) : ∀ (n : Nat) (acc : List Char),
    ∃ m rest, m < 10 ∧ natDigits (fuel + 1) n acc = digitChar m :: rest := by
  induction fuel with
  | zero =>
    intro n acc
    refine ⟨n % 10, acc, Nat.mod_lt _ (by decide), ?_⟩
    simp [natDigits]
  | succ fuel ih =>
    intro n acc
    by_cases h0 : n / 10 = 0
    · refine ⟨n % 10, acc, Nat.mod_lt _ (by decide), ?_⟩
      rw [natDigits]
      simp [h0]
    · obtain ⟨m, rest, hm, he⟩ := ih (n / 10) (digitChar (n % 10) :: acc)
      refine ⟨m, rest, hm, ?_⟩
      rw [natDigits]
      simp [h0, he]

theorem atoiResult_of_int32 (x : Int) (h1 : -(2 ^ 31) ≤ x) (h2 : x < 2 ^ 31) :
    atoiResult x = x := by
  unfold atoiResult toInt32
  omega

theorem toLong_of_long (x : Int) (h1 : -(2 ^ 63) ≤ x) (h2 : x < 2 ^ 63) : toLong x = x := by
  unfold toLong
  omega

theorem atoi_of_data (s : PString) (c : Char) (cs : List Char) (hs : s.data = c :: cs)
    (hsp : isspace c = false) :
    atoi s = if c = '-' then atoiResult (-(atoiLoop cs 0 : Int))
      else if c = '+' then atoiResult (atoiLoop cs 0)
      else atoiResult (atoiLoop (c :: cs) 0) := by
  unfold atoi
  rw [hs, List.dropWhile_cons_of_neg (by simp [hsp])]

theorem atoi_fmtLong_ofNat (n : Nat) (h2 : (n : Int) < 2 ^ 31) :
    atoi (fmtLong (Int.ofNat n)) = (n : Int) := by
  obtain ⟨m, rest, hm, he⟩ := natDigits_head n n []
  obtain ⟨_, _, hsp, hminus, hplus⟩ := digitChar_facts m hm
  have hloop := atoiLoop_natDigits (n + 1) n [] (Nat.lt_succ_self n)
  rw [he] at hloop
  have hdata : (fmtLong (Int.ofNat n)).data = digitChar m :: rest := he
  rw [atoi_of_data _ _ _ hdata hsp, if_neg hminus, if_neg hplus, hloop]
  exact atoiResult_of_int32 _ (by omega) h2

theorem atoi_fmtLong_negSucc (n : Nat) (h1 : -(2 ^ 31) ≤ Int.negSucc n) :
    atoi (fmtLong (Int.negSucc n)) = Int.negSucc n := by
  have hloop := atoiLoop_natDigits (n + 2) (n + 1) [] (Nat.lt_succ_self _)
  have hdata : (fmtLong (Int.negSucc n)).data = '-' :: natDigits (n + 2) (n + 1) [] := rfl
  rw [atoi_of_data _ _ _ hdata (by decide), if_pos rfl, hloop]
  have e0 : atoiLoop [] (n + 1) = n + 1 := rfl
  have e : (-((atoiLoop [] (n + 1) : Nat) : Int)) = Int.negSucc n := by
    rw [e0, Int.negSucc_eq]
    push_cast
    rfl
  rw [e]
  exact atoiResult_of_int32 _ h1 (by omega)

/-- The function `atoi` reads back the decimal text of every `int`. -/
theorem atoi_fmtLong (d : Int) (h1 : -(2 ^ 31) ≤ d) (h2 : d < 2 ^ 31) : atoi (fmtLong d) = d :=
  match d, h1, h2 with
  | Int.ofNat n, _, h2 => atoi_fmtLong_ofNat n h2
  | Int.negSucc n, h1, _ => atoi_fmtLong_negSucc n h1

/-! ## The handler `hincrby` -/

/-- What `hincrby` does on a key that is absent or holds a hash, for every
delta argument: an absent field is created with the decimal text of
`atoi(delta)`; a field whose value `Strtol` reads as `n` is rewritten with
the decimal text of `n + atoi(delta)`. Other fields and keys are untouched. -/
theorem hincrby_spec (hashOf : PString → Nat) (Strtol : PString → Option Int)
    {store : PStore} {k : PString} (hk : HashOrAbsent store k) (c f delta : PString)
    (r : UnboundedBuffer) :
    (fieldOf store k f = none →
      ∃ s, hincrby hashOf Strtol [c, k, f, delta] store r =
          (PError_ok, s, r ++ [FormatInt (atoi delta)]) ∧
        fieldOf s k f = some (fmtLong (atoi delta)) ∧
        (∀ f2, f2 ≠ f → fieldOf s k f2 = fieldOf store k f2) ∧
        (∀ k2, k2 ≠ k → s.get k2 = store.get k2)) ∧
    (∀ x n, fieldOf store k f = some x → Strtol x = some n →
      ∃ s, hincrby hashOf Strtol [c, k, f, delta] store r =
          (PError_ok, s, r ++ [FormatInt (toLong (n + atoi delta))]) ∧
        fieldOf s k f = some (fmtLong (toLong (n + atoi delta))) ∧
        (∀ f2, f2 ≠ f → fieldOf s k f2 = fieldOf store k f2) ∧
        (∀ k2, k2 ≠ k → s.get k2 = store.get k2)) := by
  obtain ⟨s, hs, g1, g2, _⟩ := GET_OR_SET_HASH_spec hk
  have fo : ∀ (h : PHash) (f2 : PString), fieldOf (storeHash s k h) k f2 = h.find f2 := by
    intro h f2
    unfold storeHash
    exact fieldOf_of_get (g1 _) f2
  constructor
  · intro habs
    have hfind : (curHash store k).find f = none := by rw [← fieldOf_curHash hk]; exact habs
    refine ⟨storeHash s k
      ((_set_hash_force hashOf (curHash store k) f "").assign f (fmtLong (atoi delta))),
      ?_, ?_, ?_, fun k2 h2 => g2 _ k2 h2⟩
    · simp [hincrby, arg, hs, hfind]
    · rw [fo, PHash.find_assign, find_set_hash_force]
      simp
    · intro f2 hne
      rw [fo, PHash.find_assign, fieldOf_curHash hk]
      simp [hne, find_set_hash_force]
  · intro x n hx hn
    have hfind : (curHash store k).find f = some x := by rw [← fieldOf_curHash hk]; exact hx
    refine ⟨storeHash s k
      ((curHash store k).assign f (fmtLong (toLong (n + atoi delta)))),
      ?_, ?_, ?_, fun k2 h2 => g2 _ k2 h2⟩
    · simp [hincrby, arg, hs, hfind, hn]
    · rw [fo, PHash.find_assign]
      simp [hfind]
    · intro f2 hne
      rw [fo, PHash.find_assign, fieldOf_curHash hk]
      simp [hne]

/-- C9 as stated fails. On the empty store, `hincrby h f 2147483648` (stored
value absent, so `n = 0`, and `d = 2^31`, with `n + d` well within 64 bits)
does not reply `2147483648`: the delta goes through `atoi`, whose result is
an `int`. -/
theorem C9_counterexample :
    ¬ (∀ (hashOf : PString → Nat) (Strtol : PString → Option Int) (store : PStore)
        (k f : PString) (n d : Int), HashOrAbsent store k →
        ((fieldOf store k f = none ∧ n = 0) ∨
          ∃ s, fieldOf store k f = some s ∧ Strtol s = some n) →
        -(2 ^ 63) ≤ n + d → n + d < 2 ^ 63 →
        let o := hincrby hashOf Strtol ["hincrby", k, f, fmtLong d] store []
        o.1 = PError_ok ∧ o.2.2 = [FormatInt (n + d)] ∧
          fieldOf o.2.1 k f = some (fmtLong (n + d))) := by
  intro H
  have h := H (fun _ => 0) decimalStrtol [] "h" "f" 0 2147483648 (Or.inl rfl)
    (Or.inl ⟨rfl, rfl⟩) (by decide) (by decide)
  have h2 := h.2.1
  revert h2
  decide

/-- C9 as amended. Increment-integer arithmetic: on a key that is absent or
holds a hash, for a field whose stored text `Strtol` reads as the integer `n`
(an absent field counting as `n = 0`) and a delta argument that is the
decimal text of an integer `d` within the signed 32-bit range, with `n + d`
within the signed 64-bit range, `hincrby` replies the integer `n + d` with
status OK, afterwards the field holds exactly the decimal text of `n + d`,
and every other field and key is unchanged. -/
theorem C9_hincrby_arithmetic (hashOf : PString → Nat) (Strtol : PString → Option Int)
    (store : PStore) (k f : PString) (n d : Int) (reply : UnboundedBuffer)
    (hk : HashOrAbsent store k)
    (hcur : (fieldOf store k f = none ∧ n = 0) ∨
      ∃ s, fieldOf store k f = some s ∧ Strtol s = some n)
    (hd1 : -(2 ^ 31) ≤ d) (hd2 : d < 2 ^ 31)
    (hs1 : -(2 ^ 63) ≤ n + d) (hs2 : n + d < 2 ^ 63) :
    let o := hincrby hashOf Strtol ["hincrby", k, f, fmtLong d] store reply
    o.1 = PError_ok ∧ o.2.2 = reply ++ [FormatInt (n + d)] ∧
      fieldOf o.2.1 k f = some (fmtLong (n + d)) ∧
      (∀ f2, f2 ≠ f → fieldOf o.2.1 k f2 = fieldOf store k f2) ∧
      (∀ k2, k2 ≠ k → o.2.1.get k2 = store.get k2) := by
  have hatoi : atoi (fmtLong d) = d := atoi_fmtLong d hd1 hd2
  have hspec := hincrby_spec hashOf Strtol hk "hincrby" f (fmtLong d) reply
  rcases hcur with ⟨habs, hn⟩ | ⟨s, hs, hn⟩
  · obtain ⟨st, e, p1, p2, p3⟩ := hspec.1 habs
    subst hn
    rw [hatoi] at e p1
    simp only [Int.zero_add]
    rw [e]
    exact ⟨rfl, rfl, p1, p2, p3⟩
  · obtain ⟨st, e, p1, p2, p3⟩ := hspec.2 s n hs hn
    rw [hatoi, toLong_of_long _ hs1 hs2] at e p1
    rw [e]
    exact ⟨rfl, rfl, p1, p2, p3⟩

/-- Witness of the amended C9: field `f` holds `40`, the delta is `-2`. -/
theorem C9_hincrby_arithmetic_witness :
    HashOrAbsent [("k", PObject.hash ⟨[[("f", "40")]]⟩)] "k" ∧
      ((fieldOf [("k", PObject.hash ⟨[[("f", "40")]]⟩)] "k" "f" = none ∧ (40 : Int) = 0) ∨
        ∃ s, fieldOf [("k", PObject.hash ⟨[[("f", "40")]]⟩)] "k" "f" = some s ∧
          decimalStrtol s = some 40) ∧
      (let o := hincrby String.length decimalStrtol ["hincrby", "k", "f", fmtLong (-2)]
          [("k", PObject.hash ⟨[[("f", "40")]]⟩)] []
       o.1 = PError_ok ∧ o.2.2 = [] ++ [FormatInt (40 + -2)] ∧
         fieldOf o.2.1 "k" "f" = some (fmtLong (40 + -2)) ∧
         (∀ f2, f2 ≠ "f" →
           fieldOf o.2.1 "k" f2 = fieldOf [("k", PObject.hash ⟨[[("f", "40")]]⟩)] "k" f2) ∧
         (∀ k2, k2 ≠ "k" →
           o.2.1.get k2 = PStore.get [("k", PObject.hash ⟨[[("f", "40")]]⟩)] k2)) :=
  ⟨Or.inr ⟨_, rfl⟩, Or.inr ⟨"40", by decide, by decide⟩,
    C9_hincrby_arithmetic String.length decimalStrtol [("k", PObject.hash ⟨[[("f", "40")]]⟩)]
      "k" "f" 40 (-2) [] (Or.inr ⟨_, rfl⟩) (Or.inr ⟨"40", by decide, by decide⟩)
      (by decide) (by decide) (by decide) (by decide)⟩

theorem hincrby_nan_spec (hashOf : PString → Nat) (Strtol : PString → Option Int)
    (store : PStore) (c k f delta s : PString) (reply : UnboundedBuffer)
    (hf : fieldOf store k f = some s) (hbad : Strtol s = none) :
    hincrby hashOf Strtol [c, k, f, delta] store reply =
      (PError_nan, store, reply ++ [ReplyError PError_nan]) := by
  obtain ⟨h, hg, hfind⟩ := fieldOf_some hf
  simp [hincrby, arg, GET_OR_SET_HASH, GetValueByType, hg, PObject.type, PObject.CastHash,
    hfind, hbad]

theorem atoi_no_leading_integer (delta : PString) :
    (delta.data = [] → atoi delta = 0) ∧
      (∀ c cs, delta.data = c :: cs → isspace c = false → c ≠ '-' → c ≠ '+' →
        c.isDigit = false → atoi delta = 0) := by
  have h0 : atoiResult 0 = 0 := by decide
  constructor
  · intro hd
    simp [atoi, hd, h0]
  · intro c cs hd hsp hm hp hdig
    rw [atoi_of_data _ _ _ hd hsp, if_neg hm, if_neg hp]
    simp [atoiLoop, hdig, h0]

/-- C10 as stated fails. On a key holding a hash without field `f`,
`hincrby h f abc` does not fail: it returns OK and creates the field. -/
theorem C10_counterexample :
    ¬ (∀ (hashOf : PString → Nat) (Strtol : PString → Option Int) (store : PStore)
        (k f delta : PString), HashOrAbsent store k → decimalStrtol delta = none →
        let o := hincrby hashOf Strtol ["hincrby", k, f, delta] store []
        o.1 = PError_nan ∧ fieldOf o.2.1 k f = fieldOf store k f) := by
  intro H
  have h := H (fun _ => 0) decimalStrtol [("h", PObject.hash ⟨[[("g", "1")]]⟩)] "h" "f" "abc"
    (Or.inr ⟨_, rfl⟩) (by decide)
  have h2 := h.1
  revert h2
  decide

/-- C10 as amended. Increment-integer does not validate the delta: on a key
that is absent or holds a hash, for every delta argument, `hincrby` takes as
delta the integer that `atoi` reads from it (0 when the argument is empty or
starts with a character that is neither white space, a sign nor a digit) and
does not fail because of the delta: an absent field is created holding the
decimal text of that integer, and a field whose stored value `Strtol` reads
as `n` is rewritten with the decimal text of `n` plus that integer, both with
status OK and the integer as reply. `hincrby` returns the not-a-number error,
leaving the store unmodified, when `Strtol` rejects the stored value. -/
theorem C10_hincrby_delta_not_validated (hashOf : PString → Nat)
    (Strtol : PString → Option Int) (store : PStore) (k f delta : PString)
    (reply : UnboundedBuffer) (hk : HashOrAbsent store k) :
    let o := hincrby hashOf Strtol ["hincrby", k, f, delta] store reply
    (fieldOf store k f = none →
      o.1 = PError_ok ∧ o.2.2 = reply ++ [FormatInt (atoi delta)] ∧
        fieldOf o.2.1 k f = some (fmtLong (atoi delta))) ∧
    (∀ x n, fieldOf store k f = some x → Strtol x = some n →
      o.1 = PError_ok ∧ o.2.2 = reply ++ [FormatInt (toLong (n + atoi delta))] ∧
        fieldOf o.2.1 k f = some (fmtLong (toLong (n + atoi delta)))) ∧
    (∀ x, fieldOf store k f = some x → Strtol x = none →
      o = (PError_nan, store, reply ++ [ReplyError PError_nan])) ∧
    (delta.data = [] → atoi delta = 0) ∧
    (∀ c cs, delta.data = c :: cs → isspace c = false → c ≠ '-' → c ≠ '+' →
      c.isDigit = false → atoi delta = 0) := by
  have hspec := hincrby_spec hashOf Strtol hk "hincrby" f delta reply
  refine ⟨?_, ?_, ?_, (atoi_no_leading_integer delta).1, (atoi_no_leading_integer delta).2⟩
  · intro habs
    obtain ⟨st, e, p1, _, _⟩ := hspec.1 habs
    rw [e]
    exact ⟨rfl, rfl, p1⟩
  · intro x n hx hn
    obtain ⟨st, e, p1, _, _⟩ := hspec.2 x n hx hn
    rw [e]
    exact ⟨rfl, rfl, p1⟩
  · intro x hx hbad
    exact hincrby_nan_spec hashOf Strtol store "hincrby" k f delta x reply hx hbad

/-- Witness of the amended C10: delta `abc` on a hash without field `f`. -/
theorem C10_hincrby_delta_not_validated_witness :
    HashOrAbsent [("h", PObject.hash ⟨[[("g", "1")]]⟩)] "h" ∧
    (let o := hincrby String.length decimalStrtol ["hincrby", "h", "f", "abc"]
        [("h", PObject.hash ⟨[[("g", "1")]]⟩)] []
     (fieldOf [("h", PObject.hash ⟨[[("g", "1")]]⟩)] "h" "f" = none →
       o.1 = PError_ok ∧ o.2.2 = [] ++ [FormatInt (atoi "abc")] ∧
         fieldOf o.2.1 "h" "f" = some (fmtLong (atoi "abc"))) ∧
     (∀ x n, fieldOf [("h", PObject.hash ⟨[[("g", "1")]]⟩)] "h" "f" = some x →
       decimalStrtol x = some n →
       o.1 = PError_ok ∧ o.2.2 = [] ++ [FormatInt (toLong (n + atoi "abc"))] ∧
         fieldOf o.2.1 "h" "f" = some (fmtLong (toLong (n + atoi "abc")))) ∧
     (∀ x, fieldOf [("h", PObject.hash ⟨[[("g", "1")]]⟩)] "h" "f" = some x →
       decimalStrtol x = none →
       o = (PError_nan, [("h", PObject.hash ⟨[[("g", "1")]]⟩)], [] ++ [ReplyError PError_nan])) ∧
     (("abc" : PString).data = [] → atoi "abc" = 0) ∧
     (∀ c cs, ("abc" : PString).data = c :: cs → isspace c = false → c ≠ '-' → c ≠ '+' →
       c.isDigit = false → atoi "abc" = 0)) :=
  ⟨Or.inr ⟨_, rfl⟩,
    C10_hincrby_delta_not_validated String.length decimalStrtol
      [("h", PObject.hash ⟨[[("g", "1")]]⟩)] "h" "f" "abc" [] (Or.inr ⟨_, rfl⟩)⟩

/-! ## The scan window, the bucket search and count 0 -/

theorem flat_length (es : List Entry) : (flat es).length = 2 * es.length := by
  induction es with
  | nil => rfl
  | cons e es ih =>
    show (e.1 :: e.2 :: flat es).length = 2 * (e :: es).length
    simp only [List.length_cons, ih]
    omega

theorem bucket_sizes_sum (h : PHash) :
    ((List.range h.bucket_count).map h.bucket_size).sum = h.size := by
  have hmap : (List.range h.bucket_count).map h.bucket_size = h.buckets.map List.length := by
    apply List.ext_getElem
    · simp [PHash.bucket_count]
    · intro i h1 h2
      simp only [List.length_map, List.length_range, PHash.bucket_count] at h1
      simp [PHash.bucket_size, List.getD_eq_getElem?_getD, List.getElem?_eq_getElem h1]
  rw [hmap]
  simp [PHash.size, PHash.entries, List.length_flatten]

/-- C18. The scan returns the offset window of the bucket-order enumeration:
the bucket sizes of every table sum to its size, and for every cursor below
the size and every count of at least 1 the batch of `HScanKey` is the list of
entries `w` at positions `cursor, ..., min(cursor + count, size) - 1` of the
enumeration (buckets in ascending index order, each in bucket-local order),
at most `count` of them, pushed as field then value (`2 * w.length` strings);
the returned cursor is `cursor + count` when that is below the size and 0
otherwise. -/
theorem C18_scan_offset_window (h : PHash) (cursor count : Nat) (res : List PString)
    (hcur : cursor < h.size) (hc : 1 ≤ count) :
    ((List.range h.bucket_count).map h.bucket_size).sum = h.size ∧
    ∃ w : List Entry,
      HScanKey h cursor count res =
        (if cursor + count < h.size then cursor + count else 0, res ++ flat w) ∧
      w.length = min (cursor + count) h.size - cursor ∧
      (∀ i, i < w.length → w[i]? = h.entries[cursor + i]?) ∧
      w.length ≤ count ∧ (flat w).length = 2 * w.length := by
  refine ⟨bucket_sizes_sum h, (h.entries.drop cursor).take count, ?_, ?_, ?_, ?_, flat_length _⟩
  · rw [HScanKey_spec]
    congr 1
    unfold nextCursorOf
    split_ifs <;> omega
  · simp only [List.length_take, List.length_drop, PHash.size]
    omega
  · intro i hi
    rw [List.length_take] at hi
    rw [List.getElem?_take_of_lt (by omega), List.getElem?_drop]
  · simp only [List.length_take]
    omega

/-- Witness of C18: cursor 1, count 2 on a table of three fields. -/
theorem C18_scan_offset_window_witness :
    1 < (PHash.size ⟨[[("a", "1")], [], [("b", "2"), ("c", "3")]]⟩) ∧ 1 ≤ 2 ∧
    (((List.range (PHash.bucket_count ⟨[[("a", "1")], [], [("b", "2"), ("c", "3")]]⟩)).map
        (PHash.bucket_size ⟨[[("a", "1")], [], [("b", "2"), ("c", "3")]]⟩)).sum =
      PHash.size ⟨[[("a", "1")], [], [("b", "2"), ("c", "3")]]⟩ ∧
    ∃ w : List Entry,
      HScanKey ⟨[[("a", "1")], [], [("b", "2"), ("c", "3")]]⟩ 1 2 [] =
        (if 1 + 2 < PHash.size ⟨[[("a", "1")], [], [("b", "2"), ("c", "3")]]⟩ then 1 + 2 else 0,
          [] ++ flat w) ∧
      w.length = min (1 + 2) (PHash.size ⟨[[("a", "1")], [], [("b", "2"), ("c", "3")]]⟩) - 1 ∧
      (∀ i, i < w.length →
        w[i]? = (PHash.entries ⟨[[("a", "1")], [], [("b", "2"), ("c", "3")]]⟩)[1 + i]?) ∧
      w.length ≤ 2 ∧ (flat w).length = 2 * w.length) :=
  ⟨by decide, by decide,
    C18_scan_offset_window ⟨[[("a", "1")], [], [("b", "2"), ("c", "3")]]⟩ 1 2 []
      (by decide) (by decide)⟩

/-- The bucket search succeeds for an offset inside the buckets, and `walk`
continues with the loop `collect` at the position found. -/
theorem findBucket_spec (cursor count : Nat) (res : List Entry) :
    ∀ (bs : List (List Entry)) (bucket0 idx : Nat), idx < bs.flatten.length →
      ∃ j i, findBucket bs bucket0 idx = some (bucket0 + j, i) ∧ j < bs.length ∧
        i < (bs.getD j []).length ∧ i + (bs.take j).flatten.length = idx ∧
        walk cursor count res bs idx =
          collect (count - res.length) ((bs.getD j []).drop i) (bs.drop (j + 1)) cursor res := by
  intro bs
  induction bs with
  | nil => intro bucket0 idx h; simp at h
  | cons b rest ih =>
    intro bucket0 idx h
    by_cases hlt : idx < b.length
    · refine ⟨0, idx, ?_, by simp, by simpa using hlt, by simp, ?_⟩
      · simp [findBucket, hlt]
      · simp [walk, hlt]
    · have hlen : idx - b.length < rest.flatten.length := by
        simp only [List.flatten_cons, List.length_append] at h
        omega
      obtain ⟨j, i, h1, h2, h3, h4, h5⟩ := ih (bucket0 + 1) (idx - b.length) hlen
      refine ⟨j + 1, i, ?_, by simpa using h2, by simpa using h3, ?_, ?_⟩
      · simp only [findBucket, hlt, if_false, h1]
        congr 2
        omega
      · simp only [List.take_succ_cons, List.flatten_cons, List.length_append]
        omega
      · simp only [walk, hlt, if_false, h5]
        simp

/-- C19. The fall-through return of `HScanHashMember` is unreachable: for
every cursor below the size of the table (the sum of its bucket sizes) the
bucket walk finds a bucket, before running past the last one, in which
`idx < bucket_size(bucket)`, where `idx` is the cursor minus the sizes of the
buckets before it; the function continues there with the collecting loop, its
iterator advanced `idx` times inside that bucket, and never executes the final
`return 0`. -/
theorem C19_fall_through_unreachable (h : PHash) (cursor count : Nat) (res : List Entry)
    (hcur : cursor < h.size) :
    ((List.range h.bucket_count).map h.bucket_size).sum = h.size ∧
    ∃ bucket idx, findBucket h.buckets 0 cursor = some (bucket, idx) ∧
      bucket < h.bucket_count ∧ idx + 1 ≤ h.bucket_size bucket ∧
      idx + (h.buckets.take bucket).flatten.length = cursor ∧
      HScanHashMember h cursor count res =
        collect (count - res.length) ((h.buckets.getD bucket []).drop idx)
          (h.buckets.drop (bucket + 1)) cursor res := by
  refine ⟨bucket_sizes_sum h, ?_⟩
  obtain ⟨j, i, h1, h2, h3, h4, h5⟩ := findBucket_spec cursor count res h.buckets 0 cursor hcur
  refine ⟨j, i, by simpa using h1, h2, h3, h4, ?_⟩
  unfold HScanHashMember
  rw [if_neg (by omega), h5]

/-- Witness of C19: cursor 2 on a table of three fields lands in bucket 2 at
offset 1. -/
theorem C19_fall_through_unreachable_witness :
    2 < (PHash.size ⟨[[("a", "1")], [], [("b", "2"), ("c", "3")]]⟩) ∧
    (((List.range (PHash.bucket_count ⟨[[("a", "1")], [], [("b", "2"), ("c", "3")]]⟩)).map
        (PHash.bucket_size ⟨[[("a", "1")], [], [("b", "2"), ("c", "3")]]⟩)).sum =
      PHash.size ⟨[[("a", "1")], [], [("b", "2"), ("c", "3")]]⟩ ∧
    ∃ bucket idx,
      findBucket (PHash.buckets ⟨[[("a", "1")], [], [("b", "2"), ("c", "3")]]⟩) 0 2 =
        some (bucket, idx) ∧
      bucket < PHash.bucket_count ⟨[[("a", "1")], [], [("b", "2"), ("c", "3")]]⟩ ∧
      idx + 1 ≤ PHash.bucket_size ⟨[[("a", "1")], [], [("b", "2"), ("c", "3")]]⟩ bucket ∧
      idx + ((PHash.buckets ⟨[[("a", "1")], [], [("b", "2"), ("c", "3")]]⟩).take bucket).flatten.length
        = 2 ∧
      HScanHashMember ⟨[[("a", "1")], [], [("b", "2"), ("c", "3")]]⟩ 2 5 [] =
        collect (5 - ([] : List Entry).length)
          (((PHash.buckets ⟨[[("a", "1")], [], [("b", "2"), ("c", "3")]]⟩).getD bucket []).drop idx)
          ((PHash.buckets ⟨[[("a", "1")], [], [("b", "2"), ("c", "3")]]⟩).drop (bucket + 1)) 2 []) :=
  ⟨by decide,
    C19_fall_through_unreachable ⟨[[("a", "1")], [], [("b", "2"), ("c", "3")]]⟩ 2 5 [] (by decide)⟩

/-- C20. A scan with count 0 makes no progress: for every table and every
cursor below its size, `HScanKey` with count 0 appends nothing and returns
the cursor it was given. Feeding the cursor back any number of times returns
it again, so from a nonzero cursor the cycle never reaches cursor 0 on an
unchanged table; from cursor 0 the call returns cursor 0, the end of the
cycle, with an empty batch. -/
theorem C20_count_zero_no_progress (h : PHash) (cursor : Nat) (res : List PString)
    (hcur : cursor < h.size) :
    HScanKey h cursor 0 res = (cursor, res) ∧
    (∀ n, Nat.iterate (fun c => scanNext h c 0) n cursor = cursor) ∧
    (cursor ≠ 0 → ∀ n, Nat.iterate (fun c => scanNext h c 0) n cursor ≠ 0) ∧
    (cursor = 0 → scanNext h 0 0 = 0 ∧ scanBatch h 0 0 = []) := by
  have hnext : ∀ c, c < h.size → scanNext h c 0 = c := by
    intro c hc
    rw [scanNext_eq]
    unfold nextCursorOf
    rw [if_neg (by omega), if_pos rfl]
  have hiter : ∀ n, Nat.iterate (fun c => scanNext h c 0) n cursor = cursor := by
    intro n
    induction n with
    | zero => rfl
    | succ n ih => rw [Function.iterate_succ_apply', ih, hnext cursor hcur]
  refine ⟨?_, hiter, fun hne n => by rw [hiter n]; exact hne, ?_⟩
  · rw [HScanKey_spec]
    unfold nextCursorOf
    rw [if_neg (by omega), if_pos rfl]
    simp [flat]
  · intro h0
    subst h0
    exact ⟨hnext 0 hcur, by simp [scanBatch_eq, flat]⟩

/-- Witness of C20: cursor 1 with count 0 on a table of two fields. -/
theorem C20_count_zero_no_progress_witness :
    1 < (PHash.size ⟨[[("a", "1")], [("b", "2")]]⟩) ∧
    (HScanKey ⟨[[("a", "1")], [("b", "2")]]⟩ 1 0 [] = (1, []) ∧
    (∀ n, Nat.iterate (fun c => scanNext ⟨[[("a", "1")], [("b", "2")]]⟩ c 0) n 1 = 1) ∧
    (1 ≠ 0 → ∀ n, Nat.iterate (fun c => scanNext ⟨[[("a", "1")], [("b", "2")]]⟩ c 0) n 1 ≠ 0) ∧
    (1 = 0 → scanNext ⟨[[("a", "1")], [("b", "2")]]⟩ 0 0 = 0 ∧
      scanBatch ⟨[[("a", "1")], [("b", "2")]]⟩ 0 0 = [])) :=
  ⟨by decide, C20_count_zero_no_progress ⟨[[("a", "1")], [("b", "2")]]⟩ 1 [] (by decide)⟩

/-! ## Read handlers -/

theorem GET_HASH_absent {store : PStore} {k : PString} (habs : store.get k = none) :
    GET_HASH store k = .error PError_notExist := by
  simp [GET_HASH, GetValueByType, habs]

theorem GET_HASH_other {store : PStore} {k : PString} {t : PType}
    (hg : store.get k = some (PObject.other t)) (ht : t ≠ PType_hash) :
    GET_HASH store k = .error PError_type := by
  simp [GET_HASH, GetValueByType, hg, PObject.type, ht]

/-- When the lookup of `GET_HASH` fails, each read handler replies the error,
returns it and leaves the key table as it is. -/
theorem read_handlers_error {store : PStore} {k : PString} {err : PError}
    (he : GET_HASH store k = .error err) (c : PString) (rest : List PString)
    (reply : UnboundedBuffer) :
    hget (c :: k :: rest) store reply = (err, store, reply ++ [ReplyError err]) ∧
    hmget (c :: k :: rest) store reply = (err, store, reply ++ [ReplyError err]) ∧
    hgetall (c :: k :: rest) store reply = (err, store, reply ++ [ReplyError err]) ∧
    hkeys (c :: k :: rest) store reply = (err, store, reply ++ [ReplyError err]) ∧
    hvals (c :: k :: rest) store reply = (err, store, reply ++ [ReplyError err]) ∧
    hexists (c :: k :: rest) store reply = (err, store, reply ++ [ReplyError err]) ∧
    hlen (c :: k :: rest) store reply = (err, store, reply ++ [ReplyError err]) := by
  simp [hget, hmget, hgetall, hkeys, hvals, hexists, hlen, arg, he]

/-- C12. Get-many preserves request order and null-fills: on a key that holds
a hash, for every list of requested fields `f_1 ... f_N` (duplicates
allowed), `hmget` returns OK, leaves the store as it is, declares a
multi-value reply of exactly `N` elements and then emits exactly `N`
elements, the `i`-th being the bulk value bound to `f_i` when `f_i` is present
and null otherwise. -/
theorem C12_hmget_order_and_null_fill (store : PStore) (c k : PString) (fs : List PString)
    (h : PHash) (reply : UnboundedBuffer) (hg : store.get k = some (PObject.hash h)) :
    ∃ items : List ReplyItem,
      hmget (c :: k :: fs) store reply =
        (PError_ok, store, reply ++ PreFormatMultiBulk fs.length :: items) ∧
      items.length = fs.length ∧
      ∀ (i : Nat) (f : PString), fs[i]? = some f →
        items[i]? = some (match h.find f with
          | some v => FormatBulk v
          | none => FormatNull) := by
  refine ⟨fs.map (replyField h), ?_, by simp, ?_⟩
  · simp [hmget, arg, GET_HASH_of_get hg]
  · intro i f hf
    rw [List.getElem?_map, hf]
    rfl

/-- Witness of C12: three requested fields, one of them twice, one absent. -/
theorem C12_hmget_order_and_null_fill_witness :
    PStore.get [("k", PObject.hash ⟨[[("a", "1")], [("b", "2")]]⟩)] "k" =
      some (PObject.hash ⟨[[("a", "1")], [("b", "2")]]⟩) ∧
    ∃ items : List ReplyItem,
      hmget ("hmget" :: "k" :: ["b", "x", "b"])
          [("k", PObject.hash ⟨[[("a", "1")], [("b", "2")]]⟩)] [] =
        (PError_ok, [("k", PObject.hash ⟨[[("a", "1")], [("b", "2")]]⟩)],
          [] ++ PreFormatMultiBulk ["b", "x", "b"].length :: items) ∧
      items.length = ["b", "x", "b"].length ∧
      ∀ (i : Nat) (f : PString), ["b", "x", "b"][i]? = some f →
        items[i]? = some (match PHash.find ⟨[[("a", "1")], [("b", "2")]]⟩ f with
          | some v => FormatBulk v
          | none => FormatNull) :=
  ⟨rfl, C12_hmget_order_and_null_fill [("k", PObject.hash ⟨[[("a", "1")], [("b", "2")]]⟩)]
    "hmget" "k" ["b", "x", "b"] ⟨[[("a", "1")], [("b", "2")]]⟩ [] rfl⟩

/-- C16. Read handlers never auto-create: for every key that is absent from
the store, each of `hget`, `hmget`, `hgetall`, `hkeys`, `hvals`, `hexists` and
`hlen` replies and returns the not-exist error and leaves the store as it is,
so that the key is still absent; the error differs from the wrong-type error,
which the same handlers return when the key holds a value that is not a hash. -/
theorem C16_read_handlers_never_create (store : PStore) (c k : PString) (rest : List PString)
    (reply : UnboundedBuffer) (habs : store.get k = none) :
    (hget (c :: k :: rest) store reply =
        (PError_notExist, store, reply ++ [ReplyError PError_notExist]) ∧
      hmget (c :: k :: rest) store reply =
        (PError_notExist, store, reply ++ [ReplyError PError_notExist]) ∧
      hgetall (c :: k :: rest) store reply =
        (PError_notExist, store, reply ++ [ReplyError PError_notExist]) ∧
      hkeys (c :: k :: rest) store reply =
        (PError_notExist, store, reply ++ [ReplyError PError_notExist]) ∧
      hvals (c :: k :: rest) store reply =
        (PError_notExist, store, reply ++ [ReplyError PError_notExist]) ∧
      hexists (c :: k :: rest) store reply =
        (PError_notExist, store, reply ++ [ReplyError PError_notExist]) ∧
      hlen (c :: k :: rest) store reply =
        (PError_notExist, store, reply ++ [ReplyError PError_notExist])) ∧
    PError_notExist ≠ PError_type ∧
    (∀ (other : PStore) (t : PType), other.get k = some (PObject.other t) → t ≠ PType_hash →
      hget (c :: k :: rest) other reply = (PError_type, other, reply ++ [ReplyError PError_type]) ∧
      hmget (c :: k :: rest) other reply = (PError_type, other, reply ++ [ReplyError PError_type]) ∧
      hgetall (c :: k :: rest) other reply =
        (PError_type, other, reply ++ [ReplyError PError_type]) ∧
      hkeys (c :: k :: rest) other reply = (PError_type, other, reply ++ [ReplyError PError_type]) ∧
      hvals (c :: k :: rest) other reply = (PError_type, other, reply ++ [ReplyError PError_type]) ∧
      hexists (c :: k :: rest) other reply =
        (PError_type, other, reply ++ [ReplyError PError_type]) ∧
      hlen (c :: k :: rest) other reply = (PError_type, other, reply ++ [ReplyError PError_type])) :=
  ⟨read_handlers_error (GET_HASH_absent habs) c rest reply, by decide,
    fun _ _ hg ht => read_handlers_error (GET_HASH_other hg ht) c rest reply⟩

/-- Witness of C16 on a store that holds another key only. -/
theorem C16_read_handlers_never_create_witness :
    PStore.get [("j", PObject.other PType_string)] "k" = none ∧
    ((hget ("r" :: "k" :: ["f"]) [("j", PObject.other PType_string)] [] =
        (PError_notExist, [("j", PObject.other PType_string)], [] ++ [ReplyError PError_notExist]) ∧
      hmget ("r" :: "k" :: ["f"]) [("j", PObject.other PType_string)] [] =
        (PError_notExist, [("j", PObject.other PType_string)], [] ++ [ReplyError PError_notExist]) ∧
      hgetall ("r" :: "k" :: ["f"]) [("j", PObject.other PType_string)] [] =
        (PError_notExist, [("j", PObject.other PType_string)], [] ++ [ReplyError PError_notExist]) ∧
      hkeys ("r" :: "k" :: ["f"]) [("j", PObject.other PType_string)] [] =
        (PError_notExist, [("j", PObject.other PType_string)], [] ++ [ReplyError PError_notExist]) ∧
      hvals ("r" :: "k" :: ["f"]) [("j", PObject.other PType_string)] [] =
        (PError_notExist, [("j", PObject.other PType_string)], [] ++ [ReplyError PError_notExist]) ∧
      hexists ("r" :: "k" :: ["f"]) [("j", PObject.other PType_string)] [] =
        (PError_notExist, [("j", PObject.other PType_string)], [] ++ [ReplyError PError_notExist]) ∧
      hlen ("r" :: "k" :: ["f"]) [("j", PObject.other PType_string)] [] =
        (PError_notExist, [("j", PObject.other PType_string)],
          [] ++ [ReplyError PError_notExist])) ∧
    PError_notExist ≠ PError_type ∧
    (∀ (other : PStore) (t : PType), other.get "k" = some (PObject.other t) → t ≠ PType_hash →
      hget ("r" :: "k" :: ["f"]) other [] = (PError_type, other, [] ++ [ReplyError PError_type]) ∧
      hmget ("r" :: "k" :: ["f"]) other [] = (PError_type, other, [] ++ [ReplyError PError_type]) ∧
      hgetall ("r" :: "k" :: ["f"]) other [] =
        (PError_type, other, [] ++ [ReplyError PError_type]) ∧
      hkeys ("r" :: "k" :: ["f"]) other [] = (PError_type, other, [] ++ [ReplyError PError_type]) ∧
      hvals ("r" :: "k" :: ["f"]) other [] = (PError_type, other, [] ++ [ReplyError PError_type]) ∧
      hexists ("r" :: "k" :: ["f"]) other [] =
        (PError_type, other, [] ++ [ReplyError PError_type]) ∧
      hlen ("r" :: "k" :: ["f"]) other [] = (PError_type, other, [] ++ [ReplyError PError_type]))) :=
  ⟨rfl, C16_read_handlers_never_create [("j", PObject.other PType_string)] "r" "k" ["f"] [] rfl⟩

/-- C14 as stated fails. On the empty store `hstrlen k f` replies zero, yet
the result of the handler is the not-exist error. -/
theorem C14_counterexample :
    ¬ (∀ (store : PStore) (k f : PString) (reply : UnboundedBuffer),
        (store.get k = none ∨ ∃ h, store.get k = some (PObject.hash h) ∧ h.find f = none) →
        (hstrlen ["hstrlen", k, f] store reply).2.2 = reply ++ [Format0] ∧
          (hstrlen ["hstrlen", k, f] store reply).1 ≠ PError_notExist) := by
  intro H
  have h := (H [] "k" "f" [] (Or.inl rfl)).2
  revert h
  decide

/-- C14 as amended. Field-length maps missing data to the zero reply: on a
key holding a hash that contains `f`, `hstrlen k f` replies the byte length
of the value bound to `f` with result OK; when the field is absent from the
hash it replies zero with result OK; when the key is absent it replies zero,
emits no error reply, and the result of the handler is the not-exist error
of the lookup. The store is unchanged in every case. -/
theorem C14_hstrlen_missing_is_zero (store : PStore) (k f : PString) (reply : UnboundedBuffer) :
    (∀ h v, store.get k = some (PObject.hash h) → h.find f = some v →
      hstrlen ["hstrlen", k, f] store reply =
        (PError_ok, store, reply ++ [FormatInt v.utf8ByteSize])) ∧
    (∀ h, store.get k = some (PObject.hash h) → h.find f = none →
      hstrlen ["hstrlen", k, f] store reply = (PError_ok, store, reply ++ [Format0])) ∧
    (store.get k = none →
      hstrlen ["hstrlen", k, f] store reply = (PError_notExist, store, reply ++ [Format0])) := by
  refine ⟨?_, ?_, ?_⟩
  · intro h v hg hf
    simp [hstrlen, arg, GetValueByType, hg, PObject.type, PObject.CastHash, hf]
  · intro h hg hf
    simp [hstrlen, arg, GetValueByType, hg, PObject.type, PObject.CastHash, hf]
  · intro habs
    simp [hstrlen, arg, GetValueByType, habs]

/-- Witness of the amended C14: a present field of 3 bytes, an absent field
and an absent key. -/
theorem C14_hstrlen_missing_is_zero_witness :
    hstrlen ["hstrlen", "k", "f"] [("k", PObject.hash ⟨[[("f", "abc")]]⟩)] [] =
        (PError_ok, [("k", PObject.hash ⟨[[("f", "abc")]]⟩)], [] ++ [FormatInt 3]) ∧
      hstrlen ["hstrlen", "k", "g"] [("k", PObject.hash ⟨[[("f", "abc")]]⟩)] [] =
        (PError_ok, [("k", PObject.hash ⟨[[("f", "abc")]]⟩)], [] ++ [Format0]) ∧
      hstrlen ["hstrlen", "k", "f"] [] [] = (PError_notExist, [], [] ++ [Format0]) :=
  ⟨(C14_hstrlen_missing_is_zero [("k", PObject.hash ⟨[[("f", "abc")]]⟩)] "k" "f" []).1
      ⟨[[("f", "abc")]]⟩ "abc" rfl (by decide),
    (C14_hstrlen_missing_is_zero [("k", PObject.hash ⟨[[("f", "abc")]]⟩)] "k" "g" []).2.1
      ⟨[[("f", "abc")]]⟩ rfl (by decide),
    (C14_hstrlen_missing_is_zero [] "k" "f" []).2.2 rfl⟩

/-! ## Field names, deletion and field counts -/

theorem findIn_eq_none_iff (l : List Entry) (f : PString) :
    findIn l f = none ↔ f ∉ l.map Prod.fst := by
  induction l with
  | nil => simp [findIn]
  | cons e l ih =>
    by_cases h : e.1 = f
    · simp [findIn, h]
    · have h2 : ¬ f = e.1 := fun hf => h hf.symm
      simp [findIn, h, h2, ih]

theorem findIn_isSome_iff (l : List Entry) (f : PString) :
    (findIn l f).isSome = true ↔ f ∈ l.map Prod.fst := by
  rw [← not_iff_not, ← findIn_eq_none_iff]
  cases findIn l f <;> simp

theorem PHash.find_eq_none_iff (h : PHash) (f : PString) : h.find f = none ↔ f ∉ keysOf h :=
  findIn_eq_none_iff _ f

theorem PHash.find_isSome_iff (h : PHash) (f : PString) :
    (h.find f).isSome = true ↔ f ∈ keysOf h :=
  findIn_isSome_iff _ f

theorem PHash.size_eq_keys (h : PHash) : h.size = (keysOf h).length := by
  simp [PHash.size, keysOf]

theorem filter_ne_of_absent (l : List Entry) (f : PString) (habs : findIn l f = none) :
    l.filter (fun e => decide (e.1 ≠ f)) = l := by
  rw [List.filter_eq_self]
  intro e he
  have hnot := (findIn_eq_none_iff l f).mp habs
  have : e.1 ≠ f := by
    intro heq
    exact hnot (heq ▸ List.mem_map_of_mem Prod.fst he)
  simpa using this

theorem PHash.erase_entries (h : PHash) (f : PString) :
    (h.erase f).1.entries = h.entries.filter (fun e => decide (e.1 ≠ f)) := by
  unfold PHash.erase
  cases hf : h.find f with
  | none => exact (filter_ne_of_absent _ f hf).symm
  | some x => simp only [PHash.entries, flatten_map_filter]

theorem hdelLoop_entries (fs : List PString) : ∀ (h : PHash) (del : Int),
    (hdelLoop fs h del).1.entries = h.entries.filter (fun e => decide (e.1 ∉ fs)) := by
  induction fs with
  | nil => intro h del; simp [hdelLoop]
  | cons f rest ih =>
    intro h del
    simp only [hdelLoop]
    rw [ih, PHash.erase_entries, List.filter_filter]
    apply List.filter_congr
    intro e _
    by_cases h1 : e.1 = f
    · simp [h1]
    · by_cases h2 : e.1 ∈ rest
      · simp [h1, h2]
      · simp [h1, h2]

theorem filter_ne_length (f : PString) : ∀ (l : List Entry), (l.map Prod.fst).Nodup →
    (l.filter (fun e => decide (e.1 ≠ f))).length + (if (findIn l f).isSome then 1 else 0) =
      l.length := by
  intro l
  induction l with
  | nil => intro _; simp [findIn]
  | cons e l ih =>
    intro hnd
    rw [List.map_cons, List.nodup_cons] at hnd
    by_cases h : e.1 = f
    · have habs : findIn l f = none := (findIn_eq_none_iff l f).mpr (h ▸ hnd.1)
      have hkeep := filter_ne_of_absent l f habs
      rw [List.filter_cons_of_neg (by simp [h]), hkeep]
      simp [findIn, h]
    · rw [List.filter_cons_of_pos (by simp [h])]
      have := ih hnd.2
      simp only [findIn, h, if_false, List.length_cons]
      omega

theorem keys_filter_nodup (l : List Entry) (p : Entry → Bool) (hnd : (l.map Prod.fst).Nodup) :
    ((l.filter p).map Prod.fst).Nodup :=
  List.Nodup.sublist (List.Sublist.map _ (List.filter_sublist l)) hnd

theorem hdelLoop_count (fs : List PString) : ∀ (h : PHash) (del : Int), (keysOf h).Nodup →
    (hdelLoop fs h del).2 + ((hdelLoop fs h del).1.size : Int) = del + (h.size : Int) := by
  induction fs with
  | nil => intro h del _; simp [hdelLoop]
  | cons f rest ih =>
    intro h del hnd
    simp only [hdelLoop]
    have hnd2 : (keysOf (h.erase f).1).Nodup := by
      unfold keysOf
      rw [PHash.erase_entries]
      exact keys_filter_nodup _ _ hnd
    rw [ih _ _ hnd2]
    have hlen := filter_ne_length f h.entries hnd
    have hsz : (h.erase f).1.size = (h.entries.filter (fun e => decide (e.1 ≠ f))).length := by
      rw [PHash.size, PHash.erase_entries]
    have hsz2 : h.size = h.entries.length := rfl
    rw [hsz, hsz2, PHash.erase_snd]
    show (if (findIn h.entries f).isSome = true then del + 1 else del) + _ = _
    split_ifs with hp
    · rw [if_pos hp] at hlen
      omega
    · rw [if_neg hp] at hlen
      omega

theorem hdelLoop_find (fs : List PString) : ∀ (h : PHash) (del : Int) (f : PString),
    (hdelLoop fs h del).1.find f = if f ∈ fs then none else h.find f := by
  induction fs with
  | nil => intro h del f; simp [hdelLoop]
  | cons g rest ih =>
    intro h del f
    simp only [hdelLoop]
    rw [ih, PHash.find_erase]
    by_cases h1 : f = g
    · simp [h1]
    · by_cases h2 : f ∈ rest
      · simp [h1, h2]
      · simp [h1, h2]

theorem hdelLoop_keys_nodup (fs : List PString) (h : PHash) (del : Int)
    (hnd : (keysOf h).Nodup) : (keysOf (hdelLoop fs h del).1).Nodup := by
  unfold keysOf
  rw [hdelLoop_entries]
  exact keys_filter_nodup _ _ hnd

/-- On a table with unique field names, the distinct listed fields that are
present are as many as the entries that the deletion loop takes away. -/
theorem listed_present_count (fs : List PString) (h : PHash) (hnd : (keysOf h).Nodup) :
    (fs.dedup.filter (fun f => (h.find f).isSome)).length +
      (h.entries.filter (fun e => decide (e.1 ∉ fs))).length = h.size := by
  have hsplit : h.entries.length =
      (h.entries.filter (fun e => decide (e.1 ∈ fs))).length +
        (h.entries.filter (fun e => !decide (e.1 ∈ fs))).length :=
    List.length_eq_length_filter_add _
  have hperm : (fs.dedup.filter (fun f => (h.find f).isSome)).Perm
      ((h.entries.filter (fun e => decide (e.1 ∈ fs))).map Prod.fst) := by
    rw [List.perm_ext_iff_of_nodup ((List.nodup_dedup fs).filter _)
      (keys_filter_nodup _ _ hnd)]
    intro a
    simp only [List.mem_filter, List.mem_dedup, List.mem_map, decide_eq_true_eq,
      PHash.find_isSome_iff, keysOf]
    constructor
    · rintro ⟨h1, e, he, rfl⟩
      exact ⟨e, ⟨he, h1⟩, rfl⟩
    · rintro ⟨e, ⟨he, h1⟩, rfl⟩
      exact ⟨h1, e, he, rfl⟩
  have hlen := hperm.length_eq
  rw [List.length_map] at hlen
  have hneg : (h.entries.filter (fun e => decide (e.1 ∉ fs))).length =
      (h.entries.filter (fun e => !decide (e.1 ∈ fs))).length := by
    congr 1
    apply List.filter_congr
    intro e _
    simp
  rw [hlen, hneg, PHash.size]
  omega

/-- C13. Delete-fields counts what it actually removed: on a key holding a
hash (with its field names unique) and for every list of fields, `hdel`
returns OK and replies the number of distinct listed fields that were present
before the call, which is the field count before minus the field count after;
afterwards every listed field is absent, every unlisted field keeps its value
and every other key is as before. On an absent key `hdel` returns and replies
the not-exist error instead of replying 0. -/
theorem C13_hdel_counts_removed (store : PStore) (c k : PString) (fs : List PString) (h : PHash)
    (reply : UnboundedBuffer) (hg : store.get k = some (PObject.hash h))
    (hnd : (keysOf h).Nodup) :
    (∃ s h2,
      hdel (c :: k :: fs) store reply =
        (PError_ok, s,
          reply ++ [FormatInt ((fs.dedup.filter (fun f => (h.find f).isSome)).length : Nat)]) ∧
      s.get k = some (PObject.hash h2) ∧
      (fs.dedup.filter (fun f => (h.find f).isSome)).length = h.size - h2.size ∧
      h2.size ≤ h.size ∧
      (∀ f, f ∈ fs → h2.find f = none) ∧
      (∀ f, f ∉ fs → h2.find f = h.find f) ∧
      (∀ k2, k2 ≠ k → s.get k2 = store.get k2)) ∧
    (∀ other : PStore, other.get k = none →
      hdel (c :: k :: fs) other reply =
        (PError_notExist, other, reply ++ [ReplyError PError_notExist])) := by
  constructor
  · have hcount := hdelLoop_count fs h 0 hnd
    have hlisted := listed_present_count fs h hnd
    have hent := hdelLoop_entries fs h 0
    have hsz : (hdelLoop fs h 0).1.size =
        (h.entries.filter (fun e => decide (e.1 ∉ fs))).length := by
      rw [PHash.size, hent]
    refine ⟨store.put k (PObject.hash (hdelLoop fs h 0).1), (hdelLoop fs h 0).1, ?_,
      PStore.get_put_same _ _ _, ?_, ?_, ?_, ?_, fun k2 h2 => PStore.get_put_ne _ _ h2⟩
    · have hd : (hdelLoop fs h 0).2 =
          ((fs.dedup.filter (fun f => (h.find f).isSome)).length : Nat) := by
        omega
      simp [hdel, arg, GetValueByType, hg, PObject.type, PObject.CastHash, storeHash, hd]
    · omega
    · omega
    · intro f hf
      rw [hdelLoop_find, if_pos hf]
    · intro f hf
      rw [hdelLoop_find, if_neg hf]
  · intro other habs
    simp [hdel, arg, GetValueByType, habs]

/-- Witness of C13: fields `a, x, a` deleted from a hash holding `a` and `b`. -/
theorem C13_hdel_counts_removed_witness :
    PStore.get [("k", PObject.hash ⟨[[("a", "1")], [("b", "2")]]⟩)] "k" =
      some (PObject.hash ⟨[[("a", "1")], [("b", "2")]]⟩) ∧
    (keysOf ⟨[[("a", "1")], [("b", "2")]]⟩).Nodup ∧
    ((∃ s h2,
      hdel ("hdel" :: "k" :: ["a", "x", "a"])
          [("k", PObject.hash ⟨[[("a", "1")], [("b", "2")]]⟩)] [] =
        (PError_ok, s,
          [] ++ [FormatInt ((["a", "x", "a"].dedup.filter
            (fun f => (PHash.find ⟨[[("a", "1")], [("b", "2")]]⟩ f).isSome)).length : Nat)]) ∧
      s.get "k" = some (PObject.hash h2) ∧
      (["a", "x", "a"].dedup.filter
          (fun f => (PHash.find ⟨[[("a", "1")], [("b", "2")]]⟩ f).isSome)).length =
        PHash.size ⟨[[("a", "1")], [("b", "2")]]⟩ - h2.size ∧
      h2.size ≤ PHash.size ⟨[[("a", "1")], [("b", "2")]]⟩ ∧
      (∀ f, f ∈ ["a", "x", "a"] → h2.find f = none) ∧
      (∀ f, f ∉ ["a", "x", "a"] → h2.find f = PHash.find ⟨[[("a", "1")], [("b", "2")]]⟩ f) ∧
      (∀ k2, k2 ≠ "k" →
        s.get k2 = PStore.get [("k", PObject.hash ⟨[[("a", "1")], [("b", "2")]]⟩)] k2)) ∧
    (∀ other : PStore, other.get "k" = none →
      hdel ("hdel" :: "k" :: ["a", "x", "a"]) other [] =
        (PError_notExist, other, [] ++ [ReplyError PError_notExist]))) :=
  ⟨rfl, by decide,
    C13_hdel_counts_removed [("k", PObject.hash ⟨[[("a", "1")], [("b", "2")]]⟩)] "hdel" "k"
      ["a", "x", "a"] ⟨[[("a", "1")], [("b", "2")]]⟩ [] rfl (by decide)⟩

theorem setSecond_keys (key val : PString) (l : List Entry) :
    (setSecond key val l).map Prod.fst = l.map Prod.fst := by
  induction l with
  | nil => rfl
  | cons e l ih =>
    by_cases h : e.1 = key
    · simp [setSecond, h]
    · simp [setSecond, h, ih]

theorem keysOf_assign (h : PHash) (key val : PString) : keysOf (h.assign key val) = keysOf h := by
  simp only [keysOf, PHash.assign, PHash.entries, assignBuckets_flatten, setSecond_keys]

theorem keysOf_insert (hashOf : PString → Nat) (h : PHash) (e : Entry)
    (habs : h.find e.1 = none) : (keysOf (h.insert hashOf e).1).Perm (e.1 :: keysOf h) := by
  obtain ⟨l1, l2, h1, h2⟩ := putInBucket_flatten e h.buckets (hashOf e.1 % h.bucket_count)
  have habs2 : findIn h.buckets.flatten e.1 = none := habs
  simp only [PHash.insert, PHash.find, PHash.entries, habs2, keysOf, h2]
  rw [h1]
  simp only [List.map_append, List.map_cons]
  exact List.perm_middle

theorem keysOf_hdelLoop (fs : List PString) (h : PHash) (del : Int) :
    keysOf (hdelLoop fs h del).1 = (keysOf h).filter (fun f => decide (f ∉ fs)) := by
  unfold keysOf
  rw [hdelLoop_entries, List.filter_map]
  rfl

theorem liveInsert_nodup {live : List PString} (hnd : live.Nodup) (f : PString) :
    (if f ∈ live then live else f :: live).Nodup := by
  split_ifs with hm
  · exact hnd
  · exact List.nodup_cons.mpr ⟨hm, hnd⟩

theorem keys_insert_tracks (hashOf : PString → Nat) (h : PHash) (live : List PString)
    (hp : (keysOf h).Perm live) (f v : PString) :
    (keysOf (h.insert hashOf (f, v)).1).Perm (if f ∈ live then live else f :: live) := by
  cases hf : h.find f with
  | some x =>
    have hmem : f ∈ live := hp.mem_iff.mp ((PHash.find_isSome_iff h f).mp (by simp [hf]))
    rw [PHash.insert_present hashOf h (f, v) hf, if_pos hmem]
    exact hp
  | none =>
    have hnot : f ∉ live := fun hm =>
      (PHash.find_eq_none_iff h f).mp hf (hp.mem_iff.mpr hm)
    rw [if_neg hnot]
    exact (keysOf_insert hashOf h (f, v) hf).trans (List.Perm.cons f hp)

theorem keys_set_hash_force_tracks (hashOf : PString → Nat) (h : PHash) (live : List PString)
    (hp : (keysOf h).Perm live) (f v : PString) :
    (keysOf (_set_hash_force hashOf h f v)).Perm (if f ∈ live then live else f :: live) := by
  unfold _set_hash_force
  cases hf : h.find f with
  | some x =>
    have hmem : f ∈ live := hp.mem_iff.mp ((PHash.find_isSome_iff h f).mp (by simp [hf]))
    simp only [keysOf_assign, if_pos hmem]
    exact hp
  | none =>
    have := keys_insert_tracks hashOf h live hp f v
    exact this

theorem curHash_tracks {k : PString} {store : PStore} {live : List PString}
    (hinv : TracksLive k store live) :
    HashOrAbsent store k ∧ (keysOf (curHash store k)).Perm live := by
  rcases hinv.2 with ⟨hnone, hl⟩ | ⟨h, hg, hp⟩
  · refine ⟨Or.inl hnone, ?_⟩
    subst hl
    simp [curHash, hnone, keysOf, PObject.CreateHash, PObject.CastHash, PHash.entries]
  · refine ⟨Or.inr ⟨h, hg⟩, ?_⟩
    simpa [curHash, hg] using hp

/-- One command keeps the hash of the key in step with the reference. -/
theorem runCmd_tracks (hashOf : PString → Nat) (k : PString) (store : PStore)
    (live : List PString) (c : HCmd) (hinv : TracksLive k store live) :
    TracksLive k (runCmd hashOf k store c) (liveStep live c) := by
  obtain ⟨hk, hp⟩ := curHash_tracks hinv
  cases c with
  | hset f v =>
    obtain ⟨s, e, g1, _⟩ := hset_spec hashOf hk "hset" f v []
    refine ⟨liveInsert_nodup hinv.1 f, Or.inr ⟨_, ?_, keys_set_hash_force_tracks hashOf _ live hp f v⟩⟩
    simp only [runCmd, e]
    exact g1
  | hsetnx f v =>
    obtain ⟨s, e, g1, _⟩ := hsetnx_spec hashOf hk "hsetnx" f v []
    refine ⟨liveInsert_nodup hinv.1 f, Or.inr ⟨_, ?_, keys_insert_tracks hashOf _ live hp f v⟩⟩
    simp only [runCmd, e]
    exact g1
  | hdel fs =>
    refine ⟨hinv.1.filter _, ?_⟩
    rcases hinv.2 with ⟨hnone, hl⟩ | ⟨h, hg, hp2⟩
    · left
      subst hl
      simp [runCmd, hdel, arg, GetValueByType, hnone, liveStep]
    · right
      refine ⟨(hdelLoop fs h 0).1, ?_, ?_⟩
      · simp [runCmd, hdel, arg, GetValueByType, hg, PObject.type, PObject.CastHash, storeHash,
          PStore.get_put_same]
      · rw [keysOf_hdelLoop]
        exact hp2.filter _

theorem runCmds_tracks (hashOf : PString → Nat) (k : PString) (cmds : List HCmd) :
    ∀ (store : PStore) (live : List PString), TracksLive k store live →
      TracksLive k (runCmds hashOf k store cmds) (cmds.foldl liveStep live) := by
  induction cmds with
  | nil => intro store live h; exact h
  | cons c cmds ih =>
    intro store live h
    exact ih _ _ (runCmd_tracks hashOf k store live c h)

theorem liveNames_snoc (cmds : List HCmd) (c : HCmd) :
    liveNames (cmds ++ [c]) = liveStep (liveNames cmds) c := by
  simp [liveNames, List.foldl_append]

/-- A split of `cmds ++ [c]` at a command has the command last, or lies in
`cmds` with `c` after it. -/
theorem split_snoc (P Q : HCmd → Prop) (cmds : List HCmd) (c : HCmd) :
    (∃ pre x post, cmds ++ [c] = pre ++ x :: post ∧ P x ∧ ∀ d ∈ post, Q d) ↔
      P c ∨ ((∃ pre x post, cmds = pre ++ x :: post ∧ P x ∧ ∀ d ∈ post, Q d) ∧ Q c) := by
  constructor
  · rintro ⟨pre, x, post, heq, hP, hQ⟩
    rcases List.eq_nil_or_concat post with hnil | ⟨post2, d, hpost⟩
    · subst hnil
      have := List.append_inj' heq rfl
      left
      have hx : c = x := by simpa using this.2
      exact hx ▸ hP
    · subst hpost
      have heq2 : cmds ++ [c] = (pre ++ x :: post2) ++ [d] := by
        rw [heq]; simp
      have := List.append_inj' heq2 rfl
      have hd : c = d := by simpa using this.2
      right
      refine ⟨⟨pre, x, post2, this.1, hP, fun d2 hd2 => hQ d2 (by simp [hd2])⟩, ?_⟩
      exact hd ▸ hQ d (by simp)
  · rintro (hP | ⟨⟨pre, x, post, heq, hP, hQ⟩, hQc⟩)
    · exact ⟨cmds, c, [], rfl, hP, by simp⟩
    · refine ⟨pre, x, post ++ [c], by simp [heq], hP, ?_⟩
      intro d hd
      rcases List.mem_append.mp hd with h1 | h1
      · exact hQ d h1
      · have : d = c := by simpa using h1
        exact this ▸ hQc

/-- The reference holds the names inserted and not deleted since: `f` is live
exactly when some command inserted it and no later command deleted it. -/
theorem mem_liveNames (cmds : List HCmd) (f : PString) :
    f ∈ liveNames cmds ↔
      ∃ pre c post, cmds = pre ++ c :: post ∧ c.inserts f ∧ ∀ d ∈ post, ¬ d.deletes f := by
  induction cmds using List.reverseRecOn with
  | nil => simp [liveNames]
  | append_singleton cmds c ih =>
    rw [liveNames_snoc, split_snoc (fun x => x.inserts f) (fun d => ¬ d.deletes f), ← ih]
    cases c with
    | hset g v =>
      simp only [liveStep, HCmd.inserts, HCmd.deletes, not_false_eq_true, and_true]
      split_ifs with hm
      · constructor
        · intro h; exact Or.inr h
        · rintro (h | h)
          · exact h ▸ hm
          · exact h
      · rw [List.mem_cons]
        constructor
        · rintro (h | h)
          · exact Or.inl h.symm
          · exact Or.inr h
        · rintro (h | h)
          · exact Or.inl h.symm
          · exact Or.inr h
    | hsetnx g v =>
      simp only [liveStep, HCmd.inserts, HCmd.deletes, not_false_eq_true, and_true]
      split_ifs with hm
      · constructor
        · intro h; exact Or.inr h
        · rintro (h | h)
          · exact h ▸ hm
          · exact h
      · rw [List.mem_cons]
        constructor
        · rintro (h | h)
          · exact Or.inl h.symm
          · exact Or.inr h
        · rintro (h | h)
          · exact Or.inl h.symm
          · exact Or.inr h
    | hdel fs =>
      simp [liveStep, HCmd.inserts, HCmd.deletes]

/-- C11. Field count tracks distinct live names: start from a store in which
key `k` is absent and run any finite sequence of `hset`, `hsetnx` and `hdel`
commands on `k`. The reference list of live names holds each name once, and a
name is in it exactly when some command inserted it and no later command
deleted it. Whenever the key exists afterwards, `hlen` replies the length of
that list with status OK; the key exists unless no name is live and nothing
was ever inserted. Setting a live field again, and deleting fields that are
not live, leave the reference as it is. -/
theorem C11_hlen_tracks_live_names (hashOf : PString → Nat) (store : PStore) (k : PString)
    (cmds : List HCmd) (reply : UnboundedBuffer) (habs : store.get k = none) :
    (liveNames cmds).Nodup ∧
    (∀ f, f ∈ liveNames cmds ↔
      ∃ pre c post, cmds = pre ++ c :: post ∧ c.inserts f ∧ ∀ d ∈ post, ¬ d.deletes f) ∧
    ((runCmds hashOf k store cmds).get k ≠ none →
      hlen ["hlen", k] (runCmds hashOf k store cmds) reply =
        (PError_ok, runCmds hashOf k store cmds,
          reply ++ [FormatInt ((liveNames cmds).length : Nat)])) ∧
    ((runCmds hashOf k store cmds).get k = none → liveNames cmds = []) ∧
    (∀ f v, f ∈ liveNames cmds →
      liveNames (cmds ++ [HCmd.hset f v]) = liveNames cmds ∧
        liveNames (cmds ++ [HCmd.hsetnx f v]) = liveNames cmds) ∧
    (∀ fs, (∀ f, f ∈ fs → f ∉ liveNames cmds) →
      liveNames (cmds ++ [HCmd.hdel fs]) = liveNames cmds) := by
  have hinv : TracksLive k (runCmds hashOf k store cmds) (liveNames cmds) :=
    runCmds_tracks hashOf k cmds store [] ⟨List.nodup_nil, Or.inl ⟨habs, rfl⟩⟩
  refine ⟨hinv.1, mem_liveNames cmds, ?_, ?_, ?_, ?_⟩
  · intro hex
    rcases hinv.2 with ⟨hnone, _⟩ | ⟨h, hg, hp⟩
    · exact absurd hnone hex
    · have hsz : h.size = (liveNames cmds).length := by
        rw [PHash.size_eq_keys, hp.length_eq]
      simp [hlen, arg, GET_HASH_of_get hg, hsz]
  · intro hnone
    rcases hinv.2 with ⟨_, hl⟩ | ⟨h, hg, _⟩
    · exact hl
    · rw [hnone] at hg
      cases hg
  · intro f v hm
    simp [liveNames_snoc, liveStep, hm]
  · intro fs hfs
    rw [liveNames_snoc]
    simp only [liveStep]
    rw [List.filter_eq_self]
    intro a ha
    have : a ∉ fs := fun h => hfs a h ha
    simpa using this

/-- Witness of C11 on the empty store with the commands of `sampleCmds`, which
leave two live names. -/
theorem C11_hlen_tracks_live_names_witness :
    PStore.get [] "k" = none ∧
    ((liveNames sampleCmds).Nodup ∧
    (∀ f, f ∈ liveNames sampleCmds ↔
      ∃ pre c post, sampleCmds = pre ++ c :: post ∧ c.inserts f ∧ ∀ d ∈ post, ¬ d.deletes f) ∧
    ((runCmds String.length "k" [] sampleCmds).get "k" ≠ none →
      hlen ["hlen", "k"] (runCmds String.length "k" [] sampleCmds) [] =
        (PError_ok, runCmds String.length "k" [] sampleCmds,
          [] ++ [FormatInt ((liveNames sampleCmds).length : Nat)])) ∧
    ((runCmds String.length "k" [] sampleCmds).get "k" = none → liveNames sampleCmds = []) ∧
    (∀ f v, f ∈ liveNames sampleCmds →
      liveNames (sampleCmds ++ [HCmd.hset f v]) = liveNames sampleCmds ∧
        liveNames (sampleCmds ++ [HCmd.hsetnx f v]) = liveNames sampleCmds) ∧
    (∀ fs, (∀ f, f ∈ fs → f ∉ liveNames sampleCmds) →
      liveNames (sampleCmds ++ [HCmd.hdel fs]) = liveNames sampleCmds)) :=
  ⟨rfl, C11_hlen_tracks_live_names String.length [] "k" sampleCmds [] rfl⟩

/-! ## The handler `hmset` -/

theorem hmsetLoop_find (hashOf : PString → Nat) (ps : List Entry) : ∀ (h : PHash) (f : PString),
    (hmsetLoop hashOf (flat ps) h).find f =
      (findIn ps.reverse f).orElse (fun _ => h.find f) := by
  induction ps with
  | nil => intro h f; simp [flat, hmsetLoop, findIn]
  | cons p ps ih =>
    intro h f
    have hflat : flat (p :: ps) = p.1 :: p.2 :: flat ps := rfl
    rw [hflat, hmsetLoop, ih, find_set_hash_force, List.reverse_cons, findIn_append]
    cases findIn ps.reverse f with
    | some x => simp
    | none =>
      by_cases hf : f = p.1
      · simp [findIn, hf]
      · have hf2 : ¬ p.1 = f := fun h => hf h.symm
        simp [findIn, hf, hf2]

/-- C15. Set-many rejects a malformed argument list atomically: for every
store and every argument vector with an odd number of arguments after the
key, `hmset` replies and returns the param error and leaves the store as it
is, so that no field is written and an absent key is not created. For the
vector of the pairs `ps`, on a key that is absent or holds a hash, it replies
OK, every listed field is then bound to the value of its last pair, unlisted
fields and other keys are unchanged. -/
theorem C15_hmset_param_error_atomic (hashOf : PString → Nat) (store : PStore) (c k : PString)
    (reply : UnboundedBuffer) :
    (∀ args : List PString, args.length % 2 = 1 →
      hmset hashOf (c :: k :: args) store reply =
        (PError_param, store, reply ++ [ReplyError PError_param])) ∧
    (∀ ps : List Entry, HashOrAbsent store k →
      ∃ s, hmset hashOf (c :: k :: flat ps) store reply = (PError_ok, s, reply ++ [FormatOK]) ∧
        (∀ f v, findIn ps.reverse f = some v → fieldOf s k f = some v) ∧
        (∀ f, f ∉ ps.map Prod.fst → fieldOf s k f = fieldOf store k f) ∧
        (∀ k2, k2 ≠ k → s.get k2 = store.get k2)) := by
  constructor
  · intro args hodd
    have hlen : (c :: k :: args).length % 2 ≠ 0 := by
      simp only [List.length_cons]
      omega
    unfold hmset
    rw [if_pos hlen]
  · intro ps hk
    obtain ⟨s, hs, g1, g2, _⟩ := GET_OR_SET_HASH_spec hk
    have hlen : ¬ (c :: k :: flat ps).length % 2 ≠ 0 := by
      simp only [List.length_cons, flat_length]
      omega
    have hfield : ∀ f, fieldOf (storeHash s k (hmsetLoop hashOf (flat ps) (curHash store k))) k f =
        (findIn ps.reverse f).orElse (fun _ => fieldOf store k f) := by
      intro f
      unfold storeHash
      rw [fieldOf_of_get (g1 _), hmsetLoop_find, fieldOf_curHash hk]
    refine ⟨storeHash s k (hmsetLoop hashOf (flat ps) (curHash store k)), ?_, ?_, ?_,
      fun k2 h2 => g2 _ k2 h2⟩
    · unfold hmset
      rw [if_neg hlen]
      simp [arg, hs]
    · intro f v hv
      rw [hfield, hv]
      rfl
    · intro f hf
      have hnone : findIn ps.reverse f = none := by
        rw [findIn_eq_none_iff]
        simpa using hf
      rw [hfield, hnone]
      rfl

/-- Witness of C15: three arguments after the key are refused on the empty
store, and two pairs for the same field are written in order. -/
theorem C15_hmset_param_error_atomic_witness :
    ["f", "1", "g"].length % 2 = 1 ∧
    hmset String.length ("hmset" :: "k" :: ["f", "1", "g"]) [] [] =
      (PError_param, [], [] ++ [ReplyError PError_param]) ∧
    HashOrAbsent [] "k" ∧
    ∃ s, hmset String.length ("hmset" :: "k" :: flat [("f", "1"), ("g", "2"), ("f", "3")]) [] [] =
        (PError_ok, s, [] ++ [FormatOK]) ∧
      (∀ f v, findIn [("f", "1"), ("g", "2"), ("f", "3")].reverse f = some v →
        fieldOf s "k" f = some v) ∧
      (∀ f, f ∉ [("f", "1"), ("g", "2"), ("f", "3")].map Prod.fst →
        fieldOf s "k" f = fieldOf [] "k" f) ∧
      (∀ k2, k2 ≠ "k" → s.get k2 = PStore.get [] k2) :=
  ⟨by decide,
    (C15_hmset_param_error_atomic String.length [] "hmset" "k" []).1 ["f", "1", "g"] (by decide),
    Or.inl rfl,
    (C15_hmset_param_error_atomic String.length [] "hmset" "k" []).2
      [("f", "1"), ("g", "2"), ("f", "3")] (Or.inl rfl)⟩

end pikiwidb
